import Mathlib

/-!
Shallow embedding of `src/shannon_fano.py` (a Shannon-Fano file compressor)
and verification of its specification claims.

Modelling conventions:
- a file is a `List Nat` of symbol values (one `Nat` per character read);
- Python `float` probabilities (`stat/total`, `half *= 0.5`, `partition <= half`)
  are modelled exactly: `Frac` is an unreduced fraction with value-level
  addition, halving and comparison (`Frac.toRat` gives its value in `ℚ`);
- codeword strings of `'0'`/`'1'` are `List Bool` (`true` = `'1'`), most
  significant bit first;
- fallible operations (`int.to_bytes` overflow, `int(s, 2)` on an empty string,
  a `defaultdict` miss that feeds a `list` into `str` concatenation, and
  non-termination of the `encode` work-stack loop) are modelled with
  `Option`/`Except`; `encode` carries explicit fuel, with the fixed fuel chosen
  so that it exceeds the number of loop iterations of every terminating run
  (a terminating run pops at most `2*n - 1` ranges, see `encodeLoop_measure`),
  so `encode = none` exactly on the runs where the Python loop diverges or
  raises;
- `file.read(1)` at end of file yields the empty bytes object, and
  `int.from_bytes(b'') = 0`, which `readByte` reproduces.
-/

namespace ShannonFano

/-- BYTE_LENGTH constant of the source. -/
def BYTE_LENGTH : Nat := 8

/-! ### Bit strings -/

/-- Value of a bit string, most significant bit first: Python `int(s, 2)`
on a non-empty string of `'0'`/`'1'` characters. -/
def bitsToNat (l : List Bool) : Nat :=
  l.foldl (fun acc b => 2 * acc + (if b then 1 else 0)) 0

/-- Recursion worker for `natToBits`, structural on a fuel bound that always
suffices (`n < fuel`), so that the kernel can evaluate it. -/
def ntbF : Nat → Nat → List Bool
  | 0, _ => []
  | fuel + 1, n =>
    if n < 2 then [decide (n = 1)]
    else ntbF fuel (n / 2) ++ [decide (n % 2 = 1)]

/-- Minimal binary representation of a natural number: Python `bin(n)[2:]`
(so `natToBits 0 = [false]`, matching the string of a zero digit). -/
def natToBits (n : Nat) : List Bool :=
  ntbF (n + 1) n

/-- Python `s.rjust(n, '0')`: left-pad with zero bits to length `n`
(no change when already at least that long). -/
def rjust (l : List Bool) (n : Nat) : List Bool :=
  List.replicate (n - l.length) false ++ l

/-- Python `s.ljust(n, '0')`: right-pad with zero bits to length `n`. -/
def ljust (l : List Bool) (n : Nat) : List Bool :=
  l ++ List.replicate (n - l.length) false

/-- Python `int.to_bytes(1, byteorder="big")` applied to a non-negative value:
yields the value itself as the single byte, or raises `OverflowError`
(modelled as `none`) when the value does not fit in one byte. -/
def to_byte (n : Nat) : Option Nat :=
  if n < 256 then some n else none

/-- Python `int(s, 2)` on a bit string: raises `ValueError` on the empty
string, otherwise the binary value. -/
def int2 (l : List Bool) : Option Nat :=
  if l = [] then none else some (bitsToNat l)

/-! ### Exact fractions standing in for Python floats -/

/-- An exact, unnormalized fraction. Probabilities `stat/total` and the
running sums built from them are represented by numerator and denominator;
all denominators arising in the pipeline are positive. -/
structure Frac where
  num : Int
  den : Int
  deriving DecidableEq

/-- The probability `stat/total` of `frequency`. -/
def Frac.ofNats (a b : Nat) : Frac := ⟨a, b⟩

/-- The integer literal `0` that seeds `half` and `partition`. -/
def Frac.zero : Frac := ⟨0, 1⟩

/-- Addition of fractions (`half += ...`, `partition += ...`). -/
def Frac.add (f g : Frac) : Frac :=
  ⟨f.num * g.den + g.num * f.den, f.den * g.den⟩

/-- Multiplication by `0.5` (`half *= 0.5`). -/
def Frac.half (f : Frac) : Frac := ⟨f.num, 2 * f.den⟩

/-- Value comparison (`partition <= half`); for the positive denominators
produced by the pipeline this is the comparison of the represented values. -/
def Frac.le (f g : Frac) : Prop := f.num * g.den ≤ g.num * f.den

instance (f g : Frac) : Decidable (Frac.le f g) :=
  inferInstanceAs (Decidable (_ ≤ _))

/-- Value of a fraction as a rational number (proof-side only). -/
def Frac.toRat (f : Frac) : ℚ := (f.num : ℚ) / (f.den : ℚ)

/-! ### Frequency Analyzer (`frequency`) -/

/-- Order of first occurrence of the distinct symbols of the input:
the key order of the `Counter` built by repeated `counter.update(char)`. -/
def firstSeen (input : List Nat) : List Nat :=
  input.foldl (fun acc c => if c ∈ acc then acc else acc ++ [c]) []

/-- Sort key of `counter.most_common()`: by count, descending. -/
def countGE (a b : Nat × Nat) : Prop := b.2 ≤ a.2

instance : DecidableRel countGE := fun _ _ =>
  inferInstanceAs (Decidable (_ ≤ _))

/-- Python `counter.most_common()`: the `(symbol, count)` pairs sorted by
count descending; the sort is stable, so ties keep first-occurrence order
(insertion sort with a non-strict descending relation is exactly the stable
descending sort that Python's `sorted(..., reverse=True)` performs). -/
def most_common (input : List Nat) : List (Nat × Nat) :=
  ((firstSeen input).map (fun c => (c, input.count c))).insertionSort countGE

/-- The `frequency` function of the source: total number of symbols read,
and the `(symbol, probability)` list sorted by probability descending. -/
def frequency (input : List Nat) : Nat × List (Nat × Frac) :=
  (input.length,
    (most_common input).map (fun p => (p.1, Frac.ofNats p.2 input.length)))

/-! ### Code Builder (`encode`) -/

/-- Association list from symbol to codeword-in-progress: the
`defaultdict(list)` named `encoder` in the source, keys in insertion order. -/
abbrev Encoder := List (Nat × List Bool)

/-- Codeword of a symbol in the encoder, if present. -/
def lookupEnc (enc : Encoder) (c : Nat) : Option (List Bool) :=
  (enc.find? (fun p => p.1 = c)).map (·.2)

/-- Python `encoder[char].append(bit)` on a `defaultdict(list)`: appends to the
existing entry, or inserts a new key at the end of the iteration order. -/
def appendBit (enc : Encoder) (c : Nat) (b : Bool) : Encoder :=
  if enc.any (fun p => p.1 = c) then
    enc.map (fun p => if p.1 = c then (p.1, p.2 ++ [b]) else p)
  else enc ++ [(c, [b])]

/-- Python list indexing `l[i]`, including negative indices from the end;
out-of-range indices raise `IndexError` (modelled as `none`). -/
def pyGet (l : List α) (i : Int) : Option α :=
  if 0 ≤ i then l.get? i.toNat
  else if 0 ≤ (l.length : Int) + i then l.get? ((l.length : Int) + i).toNat
  else none

/-- First pass of the `else` branch of `encode`'s loop: sum the probabilities
at indices `i, i+1, ..., i+cnt-1` (Python `for i in range(start, end+1)`
accumulating `half`). -/
def rangeSum (freq : List (Nat × Frac)) (i : Int) : Nat → Option Frac
  | 0 => some Frac.zero
  | cnt + 1 => do
    let entry ← pyGet freq i
    let rest ← rangeSum freq (i + 1) cnt
    return Frac.add entry.2 rest

/-- Second pass of the `else` branch: walk the range keeping the running
`partition`; append `'0'` while `partition <= half`, else append `'1'` and
record the first such index in `partition_index`. -/
def splitWalk (freq : List (Nat × Frac)) (half : Frac) :
    Int → Nat → Frac → Int → Encoder → Option (Encoder × Int)
  | _, 0, _, pidx, enc => some (enc, pidx)
  | i, cnt + 1, part, pidx, enc => do
    let entry ← pyGet freq i
    if Frac.le part half then
      splitWalk freq half (i + 1) cnt (Frac.add part entry.2) pidx
        (appendBit enc entry.1 false)
    else
      splitWalk freq half (i + 1) cnt (Frac.add part entry.2)
        (if pidx < 0 then i else pidx) (appendBit enc entry.1 true)

/-- The work-stack loop of `encode`, with explicit fuel; each fuel unit pays
for one pop. The stack head is the most recently pushed range. -/
def encodeLoop (freq : List (Nat × Frac)) :
    Nat → List (Int × Int) → Encoder → Option Encoder
  | 0, _, _ => none
  | _ + 1, [], enc => some enc
  | fuel + 1, (s, e) :: stack, enc =>
    if s = e then encodeLoop freq fuel stack enc
    else if e - s = 1 then
      match pyGet freq s, pyGet freq e with
      | some a, some b =>
        encodeLoop freq fuel stack (appendBit (appendBit enc a.1 false) b.1 true)
      | _, _ => none
    else
      match rangeSum freq s (e + 1 - s).toNat with
      | none => none
      | some tot =>
        match splitWalk freq (Frac.half tot) s (e + 1 - s).toNat Frac.zero (-1) enc with
        | none => none
        | some (enc2, pidx) =>
          encodeLoop freq fuel ((s, pidx - 1) :: (pidx, e) :: stack) enc2

/-- The `encode` loop run with a given amount of fuel from the initial stack
`[(0, len(frequency_data) - 1)]`. -/
def encodeFuel (freq : List (Nat × Frac)) (fuel : Nat) : Option Encoder :=
  encodeLoop freq fuel [(0, (freq.length : Int) - 1)] []

/-- The `encode` function of the source. The final `''.join` pass over the
dictionary is the identity in this model. The fuel `2 * n + 2` exceeds the
pop count of every terminating run of the Python loop, so the result is
`none` exactly when that loop diverges or raises. -/
def encode (freq : List (Nat × Frac)) : Option Encoder :=
  encodeFuel freq (2 * freq.length + 2)

/-! ### Metadata Codec (`pack_metadata`, `unpack_metadata`) -/

/-- One `(symbol byte, length byte, value byte)` triple of the header: the
three `to_byte` calls of `pack_metadata`'s loop body, computed before any of
the triple is written. -/
def tripleOf (c : Nat) (v : List Bool) : Option (List Nat) := do
  let kb ← to_byte c
  let lb ← to_byte v.length
  let n ← int2 v
  let vb ← to_byte n
  return [kb, lb, vb]

/-- The per-entry loop of `pack_metadata`; `acc` is the bytes written so far,
kept in the `Except.error` result when a `to_byte` call overflows. -/
def pmLoop : Encoder → List Nat → Except (List Nat) (List Nat)
  | [], acc => .ok acc
  | (c, v) :: rest, acc =>
    match tripleOf c v with
    | none => .error acc
    | some t => pmLoop rest (acc ++ t)

/-- The `pack_metadata` function of the source: writes
`len(frequency_data)`, then `input_size`, then one triple per encoder entry
in iteration order. A failed result carries the bytes already written. -/
def pack_metadata (enc : Encoder) (input_size : Nat) (freqLen : Nat) :
    Except (List Nat) (List Nat) :=
  match to_byte freqLen with
  | none => .error []
  | some sz =>
    match to_byte input_size with
    | none => .error [sz]
    | some t => pmLoop enc [sz, t]

/-! ### Bit Packer (`pack_data`, `pack`) -/

/-- Iteration worker for `drain`, structural on a fuel bound that always
suffices (one fuel unit per emitted byte, and at most `len/8` bytes are
emitted), so that the kernel can evaluate it. -/
def drainF : Nat → List Bool → List Nat → List Bool × List Nat
  | 0, bits, out => (bits, out)
  | fuel + 1, bits, out =>
    if BYTE_LENGTH < bits.length then
      drainF fuel (bits.drop BYTE_LENGTH) (out ++ [bitsToNat (bits.take BYTE_LENGTH)])
    else (bits, out)

/-- Python `while len(bits) > BYTE_LENGTH:` — emit the leading 8-bit group as
one byte and drop it from the buffer, repeatedly. -/
def drain (bits : List Bool) (out : List Nat) : List Bool × List Nat :=
  drainF bits.length bits out

/-- The per-character loop of `pack_data`: append the character's codeword to
the bit buffer and drain full bytes. A symbol missing from the encoder makes
the `defaultdict` produce `[]` and `bits += encoder[char]` raise `TypeError`
(modelled as `none`). -/
def pdLoop (enc : Encoder) : List Nat → List Bool → List Nat →
    Option (List Bool × List Nat)
  | [], bits, out => some (bits, out)
  | c :: input, bits, out =>
    match lookupEnc enc c with
    | none => none
    | some code =>
      let (bits2, out2) := drain (bits ++ code) out
      pdLoop enc input bits2 out2

/-- The `pack_data` function of the source: pack all codewords of the input
into bytes, right-padding a trailing partial byte with zero bits. -/
def pack_data (input : List Nat) (enc : Encoder) : Option (List Nat) := do
  let (bits, out) ← pdLoop enc input [] []
  if bits = [] then return out
  else return out ++ [bitsToNat (ljust bits BYTE_LENGTH)]

/-- The `pack` function of the source: frequency analysis, code construction,
header, payload. `none` models any raised exception or divergence. -/
def pack (input : List Nat) : Option (List Nat) :=
  let fd := frequency input
  match encode fd.2 with
  | none => none
  | some enc =>
    match pack_metadata enc fd.1 fd.2.length with
    | .error _ => none
    | .ok hdr =>
      match pack_data input enc with
      | none => none
      | some pl => some (hdr ++ pl)

/-! ### Metadata decoder (`unpack_metadata`) -/

/-- Python `file_input.read(1)` followed by `int.from_bytes`: one byte from
the stream, or `0` at end of file (`int.from_bytes(b'') = 0`). -/
def readByte : List Nat → Nat × List Nat
  | [] => (0, [])
  | b :: rest => (b, rest)

/-- Decoder mapping from codeword to symbol, keys in insertion order: the
`decoder` dict of `unpack_metadata`. -/
abbrev Decoder := List (List Bool × Nat)

/-- Python `decoder[val] = key`: overwrite in place, or insert at the end. -/
def insertOverwrite (d : Decoder) (val : List Bool) (key : Nat) : Decoder :=
  if d.any (fun p => p.1 = val) then
    d.map (fun p => if p.1 = val then (p.1, key) else p)
  else d ++ [(val, key)]

/-- Python `val_lens.add(n)` on a set modelled as a duplicate-free list. -/
def addIfNew (vl : List Nat) (n : Nat) : List Nat :=
  if n ∈ vl then vl else vl ++ [n]

/-- Python `decoder.get(bit_str)`. -/
def dlookup (d : Decoder) (val : List Bool) : Option Nat :=
  (d.find? (fun p => p.1 = val)).map (·.2)

/-- One iteration of the `while decoder_size > 0` loop of `unpack_metadata`:
read a `(symbol, length, value)` triple, rebuild the codeword by
left-zero-padding the value's binary form to the stored length, record the
length. Returns the updated decoder, length set and remaining input. -/
def umStep (inp : List Nat) (dec : Decoder) (vl : List Nat) :
    Decoder × List Nat × List Nat :=
  let (kb, inp1) := readByte inp
  let (lb, inp2) := readByte inp1
  let (vb, inp3) := readByte inp2
  (insertOverwrite dec (rjust (natToBits vb) lb) kb, addIfNew vl lb, inp3)

/-- The `while decoder_size > 0` loop of `unpack_metadata`, counting down by 3
from `decoder_size`; a final positive remainder below 3 still runs one
iteration, as in the source. -/
def umLoop : Nat → List Nat → Decoder → List Nat →
    Decoder × List Nat × List Nat
  | 0, inp, dec, vl => (dec, vl, inp)
  | 1, inp, dec, vl =>
    let (dec2, vl2, inp2) := umStep inp dec vl
    (dec2, vl2, inp2)
  | 2, inp, dec, vl =>
    let (dec2, vl2, inp2) := umStep inp dec vl
    (dec2, vl2, inp2)
  | sz + 3, inp, dec, vl =>
    let (dec2, vl2, inp2) := umStep inp dec vl
    umLoop sz inp2 dec2 vl2

/-- The `unpack_metadata` function of the source: returns the stored total
count, the codeword-to-symbol decoder, the set of codeword lengths, and the
rest of the stream. -/
def unpack_metadata (inp : List Nat) : Nat × Decoder × List Nat × List Nat :=
  let (szb, inp1) := readByte inp
  let (tb, inp2) := readByte inp1
  let (dec, vl, rest) := umLoop (3 * szb) inp2 [] []
  (tb, dec, vl, rest)

/-! ### Bit Unpacker (`unpack_data`, `unpack`) -/

/-- Python `bin(byte)[2:].rjust(BYTE_LENGTH, '0')`: the bits of one payload
byte, most significant first. -/
def bitsOfByte (b : Nat) : List Bool :=
  rjust (natToBits b) BYTE_LENGTH

/-- The inner `for bit in byte:` loop of `unpack_data`, acting on the state
`(bit buffer, remaining symbol count, output)`. After a dictionary hit the
buffer is cleared and the counter decremented; when it reaches zero the loop
breaks, discarding the remaining bits of the current byte. -/
def decodeBits (d : Decoder) (vl : List Nat) :
    List Bool → List Bool × Int × List Nat → List Bool × Int × List Nat
  | [], st => st
  | b :: rest, (buf, size, out) =>
    let buf2 := buf ++ [b]
    if buf2.length ∈ vl then
      match dlookup d buf2 with
      | some sym =>
        if size - 1 = 0 then ([], size - 1, out ++ [sym])
        else decodeBits d vl rest ([], size - 1, out ++ [sym])
      | none => decodeBits d vl rest (buf2, size, out)
    else decodeBits d vl rest (buf2, size, out)

/-- The outer `while byte:` loop of `unpack_data`: read payload bytes until
end of file, feeding each byte's bits to the inner loop. -/
def udLoop (d : Decoder) (vl : List Nat) :
    List Nat → List Bool × Int × List Nat → List Nat
  | [], st => st.2.2
  | b :: bs, st => udLoop d vl bs (decodeBits d vl (bitsOfByte b) st)

/-- The `unpack_data` function of the source. -/
def unpack_data (payload : List Nat) (input_size : Int) (d : Decoder)
    (vl : List Nat) : List Nat :=
  udLoop d vl payload ([], input_size, [])

/-- The `unpack` function of the source: read the header, then decode the
payload; the result is the list of symbols written to the output file. -/
def unpack (file : List Nat) : List Nat :=
  let (t, d, vl, rest) := unpack_metadata file
  unpack_data rest (t : Int) d vl

end ShannonFano

namespace ShannonFano

/-! ### Divergence of the work-stack loop on degenerate ranges -/

/-- Once the range `(0, -2)` is on top of the stack, every further iteration
pops it and pushes it back (together with `(-1, -2)`), so the loop never
terminates, whatever fuel it is given. -/
theorem encodeLoop_cycle (freq : List (Nat × Frac)) :
    ∀ (fuel : Nat) (rest : List (Int × Int)) (enc : Encoder),
      encodeLoop freq fuel (((0 : Int), (-2 : Int)) :: rest) enc = none := by
  intro fuel
  induction fuel with
  | zero => intro rest enc; rfl
  | succ n ih =>
    intro rest enc
    show encodeLoop freq (n + 1) _ _ = none
    rw [encodeLoop]
    norm_num [rangeSum, splitWalk]
    exact ih _ _

/-- On the empty frequency list the initial range `(0, -1)` immediately
produces the cycling range `(0, -2)`: `encode([])` never terminates. -/
theorem encodeFuel_nil_eq_none (fuel : Nat) : encodeFuel [] fuel = none := by
  cases fuel with
  | zero => rfl
  | succ n =>
    show encodeLoop [] (n + 1) [((0 : Int), (0 : Int) - 1)] [] = none
    rw [encodeLoop]
    norm_num [rangeSum, splitWalk]
    exact encodeLoop_cycle [] n _ _

/-- An unsorted positive frequency list on which the whole range sums to at
most twice `half`, so `partition_index` stays `-1` and the loop diverges.
All probabilities are dyadic, so Python float arithmetic is exact here. -/
def unsortedFreq : List (Nat × Frac) := [(0, ⟨1, 8⟩), (1, ⟨1, 8⟩), (2, ⟨6, 8⟩)]

/-- On `unsortedFreq` the first split never crosses `half`, `partition_index`
stays `-1`, and the pushed range `(0, -2)` cycles forever. -/
theorem encodeFuel_unsortedFreq_eq_none (fuel : Nat) :
    encodeFuel unsortedFreq fuel = none := by
  cases fuel with
  | zero => rfl
  | succ n =>
    have h0 : encodeFuel unsortedFreq (n + 1) =
        encodeLoop unsortedFreq (n + 1) [((0 : Int), (2 : Int))] [] := by
      norm_num [encodeFuel, unsortedFreq]
    have h1 : encodeLoop unsortedFreq (n + 1) [((0 : Int), (2 : Int))] [] =
        encodeLoop unsortedFreq n [((0 : Int), (-2 : Int)), ((-1 : Int), (2 : Int))]
          [(0, [false]), (1, [false]), (2, [false])] := rfl
    rw [h0, h1]
    exact encodeLoop_cycle unsortedFreq n _ _

/-! ### Values of fractions -/

theorem Frac.toRat_zero : Frac.zero.toRat = 0 := by
  simp [Frac.zero, Frac.toRat]

theorem Frac.zero_den_pos : (0 : Int) < Frac.zero.den := by
  simp [Frac.zero]

theorem Frac.add_den_pos {f g : Frac} (hf : 0 < f.den) (hg : 0 < g.den) :
    0 < (f.add g).den := by
  simpa [Frac.add] using mul_pos hf hg

theorem Frac.toRat_add {f g : Frac} (hf : 0 < f.den) (hg : 0 < g.den) :
    (f.add g).toRat = f.toRat + g.toRat := by
  have hf0 : ((f.den : ℚ)) ≠ 0 := by positivity
  have hg0 : ((g.den : ℚ)) ≠ 0 := by positivity
  simp only [Frac.add, Frac.toRat]
  push_cast
  rw [div_add_div _ _ hf0 hg0]
  ring_nf

theorem Frac.half_den_pos {f : Frac} (hf : 0 < f.den) :
    0 < (Frac.half f).den := by
  simp only [Frac.half]
  omega

theorem Frac.toRat_half (f : Frac) : (Frac.half f).toRat = f.toRat / 2 := by
  simp only [Frac.half, Frac.toRat]
  push_cast
  rw [div_div]
  ring_nf

theorem Frac.le_iff {f g : Frac} (hf : 0 < f.den) (hg : 0 < g.den) :
    Frac.le f g ↔ f.toRat ≤ g.toRat := by
  have hfq : (0 : ℚ) < (f.den : ℚ) := by exact_mod_cast hf
  have hgq : (0 : ℚ) < (g.den : ℚ) := by exact_mod_cast hg
  rw [Frac.le, Frac.toRat, Frac.toRat, div_le_div_iff hfq hgq]
  constructor
  · intro h; exact_mod_cast h
  · intro h; exact_mod_cast h

theorem Frac.ofNats_den_pos {a b : Nat} (hb : 0 < b) :
    0 < (Frac.ofNats a b).den := by
  simp only [Frac.ofNats]
  omega

theorem Frac.ofNats_toRat (a b : Nat) :
    (Frac.ofNats a b).toRat = (a : ℚ) / (b : ℚ) := by
  simp [Frac.ofNats, Frac.toRat]

theorem Frac.ofNats_toRat_pos {a b : Nat} (ha : 0 < a) (hb : 0 < b) :
    0 < (Frac.ofNats a b).toRat := by
  rw [Frac.ofNats_toRat]
  positivity

/-! ### Bit string arithmetic -/

theorem bitsToNat_foldl_acc (l : List Bool) :
    ∀ acc : Nat,
      l.foldl (fun a b => 2 * a + (if b then 1 else 0)) acc =
        acc * 2 ^ l.length + bitsToNat l := by
  induction l with
  | nil => intro acc; simp [bitsToNat]
  | cons b l ih =>
    intro acc
    have h2 : bitsToNat (b :: l) = (if b then 1 else 0) * 2 ^ l.length + bitsToNat l := by
      show l.foldl _ (2 * 0 + (if b then 1 else 0)) = _
      rw [ih]
      simp
    show l.foldl _ (2 * acc + (if b then 1 else 0)) = _
    rw [ih, h2, List.length_cons, pow_succ]
    ring

theorem bitsToNat_append (l1 l2 : List Bool) :
    bitsToNat (l1 ++ l2) = bitsToNat l1 * 2 ^ l2.length + bitsToNat l2 := by
  rw [bitsToNat, List.foldl_append]
  rw [show (l1.foldl (fun a b => 2 * a + (if b then 1 else 0)) 0) = bitsToNat l1 from rfl]
  exact bitsToNat_foldl_acc l2 (bitsToNat l1)

theorem bitsToNat_nil : bitsToNat [] = 0 := rfl

theorem bitsToNat_cons (b : Bool) (l : List Bool) :
    bitsToNat (b :: l) = (if b then 1 else 0) * 2 ^ l.length + bitsToNat l := by
  have := bitsToNat_append [b] l
  simpa [bitsToNat] using this

theorem bitsToNat_lt (l : List Bool) : bitsToNat l < 2 ^ l.length := by
  induction l with
  | nil => simp [bitsToNat]
  | cons b l ih =>
    rw [bitsToNat_cons]
    have : (2 : Nat) ^ (b :: l).length = 2 ^ l.length + 2 ^ l.length := by
      simp [List.length_cons, pow_succ]; ring
    rw [this]
    cases b <;> simp <;> omega

theorem bitsToNat_replicate_false (k : Nat) :
    bitsToNat (List.replicate k false) = 0 := by
  induction k with
  | zero => rfl
  | succ n ih =>
    rw [List.replicate_succ, bitsToNat_cons, ih]
    simp

theorem bitsToNat_rjust (l : List Bool) (n : Nat) :
    bitsToNat (rjust l n) = bitsToNat l := by
  rw [rjust, bitsToNat_append, bitsToNat_replicate_false]
  simp

theorem rjust_length_of_le {l : List Bool} {n : Nat} (h : l.length ≤ n) :
    (rjust l n).length = n := by
  simp [rjust]
  omega

theorem bitsToNat_inj : ∀ l1 l2 : List Bool,
    l1.length = l2.length → bitsToNat l1 = bitsToNat l2 → l1 = l2 := by
  intro l1
  induction l1 with
  | nil => intro l2 hl _; cases l2 with
    | nil => rfl
    | cons => simp at hl
  | cons b1 t1 ih =>
    intro l2 hl hv
    cases l2 with
    | nil => simp at hl
    | cons b2 t2 =>
      simp only [List.length_cons, Nat.succ_inj] at hl
      rw [bitsToNat_cons, bitsToNat_cons, hl] at hv
      have h1 := bitsToNat_lt t1
      have h2 := bitsToNat_lt t2
      rw [hl] at h1
      cases b1 <;> cases b2
      · simp only [if_neg Bool.false_ne_true] at hv
        rw [ih t2 hl (by omega)]
      · exfalso; simp at hv; omega
      · exfalso; simp at hv; omega
      · simp only [if_pos rfl] at hv
        rw [ih t2 hl (by omega)]

theorem ntbF_congr : ∀ n f g : Nat, n < f → n < g → ntbF f n = ntbF g n := by
  intro n
  induction n using Nat.strong_induction_on with
  | _ n ih =>
    intro f g hf hg
    match f, g with
    | f + 1, g + 1 =>
      show ntbF (f + 1) n = ntbF (g + 1) n
      rw [ntbF, ntbF]
      by_cases h2 : n < 2
      · simp [h2]
      · simp only [h2, if_false]
        have hd : n / 2 < n := Nat.div_lt_self (by omega) (by omega)
        rw [ih (n / 2) hd f g (by omega) (by omega)]

theorem natToBits_unfold (n : Nat) :
    natToBits n = if n < 2 then [decide (n = 1)]
      else natToBits (n / 2) ++ [decide (n % 2 = 1)] := by
  rw [natToBits, ntbF]
  by_cases h2 : n < 2
  · simp [h2]
  · simp only [h2, if_false]
    have hd : n / 2 < n := Nat.div_lt_self (by omega) (by omega)
    rw [natToBits, ntbF_congr (n / 2) n (n / 2 + 1) (by omega) (by omega)]

theorem natToBits_ne_nil (n : Nat) : natToBits n ≠ [] := by
  rw [natToBits_unfold]
  by_cases h2 : n < 2 <;> simp [h2]

theorem bitsToNat_natToBits (n : Nat) : bitsToNat (natToBits n) = n := by
  induction n using Nat.strong_induction_on with
  | _ n ih =>
    rw [natToBits_unfold]
    by_cases h2 : n < 2
    · interval_cases n <;> rfl
    · simp only [h2, if_false]
      rw [bitsToNat_append]
      have hd : n / 2 < n := Nat.div_lt_self (by omega) (by omega)
      rw [ih (n / 2) hd]
      rcases Nat.even_or_odd n with he | ho
      · have : n % 2 = 0 := Nat.even_iff.mp he
        simp [this, bitsToNat_cons, bitsToNat]
        omega
      · have : n % 2 = 1 := Nat.odd_iff.mp ho
        simp [this, bitsToNat_cons, bitsToNat]
        omega

theorem natToBits_length_le {n k : Nat} (hn : n < 2 ^ k) (hk : 1 ≤ k) :
    (natToBits n).length ≤ k := by
  induction k generalizing n with
  | zero => omega
  | succ k ih =>
    rw [natToBits_unfold]
    by_cases h2 : n < 2
    · simp [h2]
    · simp only [h2, if_false, List.length_append, List.length_cons,
        List.length_nil]
      have hpow : 2 ^ (k + 1) = 2 ^ k * 2 := pow_succ 2 k
      have hk1 : 1 ≤ k := by
        rcases Nat.eq_zero_or_pos k with rfl | h
        · exfalso; exact h2 (by simpa using hn)
        · exact h
      have hd : n / 2 < 2 ^ k := by omega
      have := ih hd hk1
      omega

theorem rjust_natToBits_bitsToNat {l : List Bool} (h : l ≠ []) :
    rjust (natToBits (bitsToNat l)) l.length = l := by
  have hlen1 : 1 ≤ l.length := by
    cases l with
    | nil => exact absurd rfl h
    | cons => simp
  have hlt : bitsToNat l < 2 ^ l.length := bitsToNat_lt l
  have hle : (natToBits (bitsToNat l)).length ≤ l.length :=
    natToBits_length_le hlt hlen1
  apply bitsToNat_inj
  · rw [rjust_length_of_le hle]
  · rw [bitsToNat_rjust, bitsToNat_natToBits]

theorem bitsOfByte_bitsToNat {g : List Bool} (h : g.length = BYTE_LENGTH) :
    bitsOfByte (bitsToNat g) = g := by
  have : g ≠ [] := by
    intro hg; rw [hg] at h; simp [BYTE_LENGTH] at h
  rw [bitsOfByte, ← h, rjust_natToBits_bitsToNat this]

/-! ### Properties of the bit packer -/

/-- Codeword of a symbol, with the `defaultdict` default for a missing key. -/
def codeD (enc : Encoder) (c : Nat) : List Bool := (lookupEnc enc c).getD []

/-- Concatenation of the codewords of an input, in input order. -/
def concatCodes (enc : Encoder) (input : List Nat) : List Bool :=
  (input.map (codeD enc)).join

/-- The bit stream carried by a byte list. -/
def bitsOfBytes (bs : List Nat) : List Bool := (bs.map bitsOfByte).join

theorem bitsOfBytes_append (a b : List Nat) :
    bitsOfBytes (a ++ b) = bitsOfBytes a ++ bitsOfBytes b := by
  simp [bitsOfBytes]

theorem drainF_stop {bits : List Bool} (h : ¬ BYTE_LENGTH < bits.length)
    (out : List Nat) : ∀ f, drainF f bits out = (bits, out) := by
  intro f
  cases f with
  | zero => rfl
  | succ f => rw [drainF, if_neg h]

theorem drainF_congr : ∀ (f g : Nat) (bits : List Bool) (out : List Nat),
    bits.length ≤ 8 * f + 8 → bits.length ≤ 8 * g + 8 →
    drainF f bits out = drainF g bits out := by
  intro f
  induction f with
  | zero =>
    intro g bits out hf _
    have h : ¬ BYTE_LENGTH < bits.length := by simp [BYTE_LENGTH]; omega
    rw [drainF_stop h, drainF_stop h]
  | succ f ih =>
    intro g bits out hf hg
    by_cases h : BYTE_LENGTH < bits.length
    · have hg1 : g ≠ 0 := by
        intro h0; subst h0; simp [BYTE_LENGTH] at h; omega
      obtain ⟨g', rfl⟩ := Nat.exists_eq_succ_of_ne_zero hg1
      rw [drainF, drainF, if_pos h, if_pos h]
      have hlen : (bits.drop BYTE_LENGTH).length = bits.length - 8 := by
        simp [BYTE_LENGTH]
      apply ih
      · rw [hlen]; omega
      · rw [hlen]; omega
    · rw [drainF_stop h, drainF_stop h]

theorem drain_unfold (bits : List Bool) (out : List Nat) :
    drain bits out =
      if BYTE_LENGTH < bits.length then
        drain (bits.drop BYTE_LENGTH) (out ++ [bitsToNat (bits.take BYTE_LENGTH)])
      else (bits, out) := by
  by_cases h : BYTE_LENGTH < bits.length
  · rw [if_pos h, drain, drain]
    have h1 : bits.length = (bits.length - 1) + 1 := by
      simp [BYTE_LENGTH] at h; omega
    rw [h1]
    rw [drainF, if_pos h]
    apply drainF_congr
    · simp [BYTE_LENGTH]; omega
    · simp [BYTE_LENGTH]; omega
  · rw [if_neg h, drain, drainF_stop h]

theorem drain_fst_len_le (bits : List Bool) (out : List Nat) :
    (drain bits out).1.length ≤ 8 := by
  suffices h : ∀ (n : Nat) (bits : List Bool) (out : List Nat),
      bits.length = n → (drain bits out).1.length ≤ 8 from
    h bits.length bits out rfl
  intro n
  induction n using Nat.strong_induction_on with
  | _ n ih =>
    intro bits out hn
    rw [drain_unfold]
    by_cases h : BYTE_LENGTH < bits.length
    · rw [if_pos h]
      simp only [BYTE_LENGTH] at h
      exact ih (bits.drop BYTE_LENGTH).length
        (by simp [BYTE_LENGTH]; omega) _ _ rfl
    · rw [if_neg h]
      simp only [BYTE_LENGTH, not_lt] at h
      exact h

theorem drain_ne_nil {bits : List Bool} (h : bits ≠ []) (out : List Nat) :
    (drain bits out).1 ≠ [] := by
  suffices hs : ∀ (n : Nat) (bits : List Bool) (out : List Nat),
      bits.length = n → bits ≠ [] → (drain bits out).1 ≠ [] from
    hs bits.length bits out rfl h
  intro n
  induction n using Nat.strong_induction_on with
  | _ n ih =>
    intro bits out hn hne
    rw [drain_unfold]
    by_cases hlt : BYTE_LENGTH < bits.length
    · rw [if_pos hlt]
      simp only [BYTE_LENGTH] at hlt
      have hd : bits.drop BYTE_LENGTH ≠ [] := by
        intro hc
        have := congrArg List.length hc
        simp [BYTE_LENGTH] at this
        omega
      exact ih (bits.drop BYTE_LENGTH).length
        (by simp [BYTE_LENGTH]; omega) _ _ rfl hd
    · rw [if_neg hlt]
      exact hne

theorem drain_sum (bits : List Bool) (out : List Nat) :
    8 * (drain bits out).2.length + (drain bits out).1.length =
      8 * out.length + bits.length := by
  suffices hs : ∀ (n : Nat) (bits : List Bool) (out : List Nat),
      bits.length = n →
      8 * (drain bits out).2.length + (drain bits out).1.length =
        8 * out.length + bits.length from
    hs bits.length bits out rfl
  intro n
  induction n using Nat.strong_induction_on with
  | _ n ih =>
    intro bits out hn
    rw [drain_unfold]
    by_cases h : BYTE_LENGTH < bits.length
    · rw [if_pos h]
      simp only [BYTE_LENGTH] at h
      rw [ih (bits.drop BYTE_LENGTH).length
        (by simp [BYTE_LENGTH]; omega) _ _ rfl]
      simp [BYTE_LENGTH]
      omega
    · rw [if_neg h]

theorem drain_bits (bits : List Bool) (out : List Nat) :
    bitsOfBytes (drain bits out).2 ++ (drain bits out).1 =
      bitsOfBytes out ++ bits := by
  suffices hs : ∀ (n : Nat) (bits : List Bool) (out : List Nat),
      bits.length = n →
      bitsOfBytes (drain bits out).2 ++ (drain bits out).1 =
        bitsOfBytes out ++ bits from
    hs bits.length bits out rfl
  intro n
  induction n using Nat.strong_induction_on with
  | _ n ih =>
    intro bits out hn
    rw [drain_unfold]
    by_cases h : BYTE_LENGTH < bits.length
    · rw [if_pos h]
      have h8 : (bits.take BYTE_LENGTH).length = BYTE_LENGTH := by
        simp only [BYTE_LENGTH] at h ⊢
        simp
        omega
      rw [ih (bits.drop BYTE_LENGTH).length
        (by simp only [BYTE_LENGTH] at h ⊢; simp; omega) _ _ rfl]
      rw [bitsOfBytes_append]
      have hb : bitsOfBytes [bitsToNat (bits.take BYTE_LENGTH)] =
          bits.take BYTE_LENGTH := by
        simp only [bitsOfBytes, List.map_cons, List.map_nil, List.join]
        simp [bitsOfByte_bitsToNat h8]
      rw [hb, List.append_assoc, List.take_append_drop]
    · rw [if_neg h]

theorem pdLoop_spec (enc : Encoder) :
    ∀ (input : List Nat) (bits : List Bool) (out : List Nat)
      (b2 : List Bool) (o2 : List Nat),
      pdLoop enc input bits out = some (b2, o2) →
      (∀ c ∈ input, (lookupEnc enc c).isSome) ∧
      8 * o2.length + b2.length =
        8 * out.length + bits.length +
          (input.map (fun c => (codeD enc c).length)).sum ∧
      (bits.length ≤ 8 → b2.length ≤ 8) ∧
      (b2 = [] → bits = [] ∧ o2 = out) ∧
      bitsOfBytes o2 ++ b2 = bitsOfBytes out ++ bits ++ concatCodes enc input := by
  intro input
  induction input with
  | nil =>
    intro bits out b2 o2 h
    simp only [pdLoop] at h
    obtain ⟨h1, h2⟩ := Prod.mk.injEq .. ▸ (Option.some.injEq .. ▸ h)
    subst h1; subst h2
    refine ⟨by simp, by simp, fun h => h, fun h => ⟨h, rfl⟩, by simp [concatCodes]⟩
  | cons c input ih =>
    intro bits out b2 o2 h
    rw [pdLoop] at h
    cases hl : lookupEnc enc c with
    | none => rw [hl] at h; exact absurd h (by simp)
    | some code =>
      rw [hl] at h
      simp only at h
      rcases hde : drain (bits ++ code) out with ⟨bits2, out2⟩
      rw [hde] at h
      simp only at h
      obtain ⟨hin, hsum, hle, hnil, hbits⟩ := ih _ _ _ _ h
      have hdsum := drain_sum (bits ++ code) out
      have hdbits := drain_bits (bits ++ code) out
      have hdle := drain_fst_len_le (bits ++ code) out
      rw [hde] at hdsum hdbits hdle
      simp only at hdsum hdbits hdle
      refine ⟨?_, ?_, ?_, ?_, ?_⟩
      · intro x hx
        rcases List.mem_cons.mp hx with rfl | hx2
        · simp [hl]
        · exact hin x hx2
      · have hcd : codeD enc c = code := by simp [codeD, hl]
        simp only [List.map_cons, List.sum_cons, hcd]
        rw [hsum]
        simp only [List.length_append] at hdsum
        omega
      · intro _
        exact hle hdle
      · intro hb2
        obtain ⟨hd1, hd2⟩ := hnil hb2
        subst hd1
        by_cases hbc : bits ++ code = []
        · have hde2 : drain (bits ++ code) out = (bits ++ code, out) := by
            rw [drain_unfold, if_neg]
            rw [hbc]
            simp [BYTE_LENGTH]
          rw [hde2] at hde
          obtain ⟨he1, he2⟩ := Prod.mk.injEq .. ▸ hde
          refine ⟨(List.append_eq_nil.mp hbc).1, ?_⟩
          rw [hd2, ← he2]
        · exfalso
          have := drain_ne_nil hbc out
          rw [hde] at this
          exact this rfl
      · have hcd : codeD enc c = code := by simp [codeD, hl]
        rw [hbits]
        simp only [concatCodes, List.map_cons, List.join_cons, hcd]
        rw [← List.append_assoc, hdbits]
        simp [concatCodes, List.append_assoc]

theorem concatCodes_length (enc : Encoder) (input : List Nat) :
    (concatCodes enc input).length =
      (input.map (fun c => (codeD enc c).length)).sum := by
  simp only [concatCodes, List.length_join, List.map_map]
  rfl

theorem pack_data_cases {input : List Nat} {enc : Encoder} {pl : List Nat}
    (h : pack_data input enc = some pl) :
    ∃ b2 o2, pdLoop enc input [] [] = some (b2, o2) ∧
      ((b2 = [] ∧ pl = o2) ∨
        (b2 ≠ [] ∧ pl = o2 ++ [bitsToNat (ljust b2 BYTE_LENGTH)])) := by
  unfold pack_data at h
  cases hp : pdLoop enc input [] [] with
  | none => rw [hp] at h; exact absurd h (by simp)
  | some p =>
    rcases p with ⟨b2, o2⟩
    rw [hp] at h
    simp only [Option.pure_def, Option.bind_eq_bind, Option.some_bind] at h
    by_cases hb : b2 = []
    · subst hb
      simp only [if_pos rfl] at h
      exact ⟨[], o2, rfl, Or.inl ⟨rfl, by simpa using h.symm⟩⟩
    · rw [if_neg hb] at h
      exact ⟨b2, o2, rfl, Or.inr ⟨hb, by simpa using h.symm⟩⟩

theorem pack_data_length {input : List Nat} {enc : Encoder} {pl : List Nat}
    (h : pack_data input enc = some pl) :
    pl.length = ((input.map (fun c => (codeD enc c).length)).sum + 7) / 8 := by
  obtain ⟨b2, o2, hp, hcase⟩ := pack_data_cases h
  obtain ⟨-, hsum, hle, hnil, -⟩ := pdLoop_spec enc input [] [] b2 o2 hp
  simp only [List.length_nil] at hsum
  have hble := hle (by simp)
  rcases hcase with ⟨hb, rfl⟩ | ⟨hb, rfl⟩
  · subst hb
    obtain ⟨-, ho⟩ := hnil rfl
    subst ho
    simp at hsum ⊢
    omega
  · have hbpos : 1 ≤ b2.length := by
      cases b2 with
      | nil => exact absurd rfl hb
      | cons => simp
    simp only [List.length_append, List.length_cons, List.length_nil]
    omega

theorem pack_data_bits {input : List Nat} {enc : Encoder} {pl : List Nat}
    (h : pack_data input enc = some pl) :
    ∃ pad, pad < 8 ∧
      bitsOfBytes pl = concatCodes enc input ++ List.replicate pad false ∧
      8 * pl.length = (concatCodes enc input).length + pad := by
  obtain ⟨b2, o2, hp, hcase⟩ := pack_data_cases h
  obtain ⟨-, hsum, hle, hnil, hbits⟩ := pdLoop_spec enc input [] [] b2 o2 hp
  simp only [List.length_nil] at hsum
  have hble := hle (by simp)
  have h00 : bitsOfBytes ([] : List Nat) = [] := rfl
  rw [h00] at hbits
  simp only [List.nil_append] at hbits
  rw [concatCodes_length]
  rcases hcase with ⟨hb, rfl⟩ | ⟨hb, rfl⟩
  · subst hb
    obtain ⟨-, ho⟩ := hnil rfl
    subst ho
    refine ⟨0, by omega, ?_, ?_⟩
    · simpa [bitsOfBytes] using hbits
    · simp at hsum ⊢
      omega
  · have hbpos : 1 ≤ b2.length := by
      cases b2 with
      | nil => exact absurd rfl hb
      | cons => simp
    refine ⟨8 - b2.length, by omega, ?_, ?_⟩
    · rw [bitsOfBytes_append]
      have hlj : (ljust b2 BYTE_LENGTH).length = BYTE_LENGTH := by
        simp [ljust, BYTE_LENGTH]
        omega
      have : bitsOfBytes [bitsToNat (ljust b2 BYTE_LENGTH)] =
          ljust b2 BYTE_LENGTH := by
        simp only [bitsOfBytes, List.map_cons, List.map_nil, List.join]
        simp [bitsOfByte_bitsToNat hlj]
      rw [this, ljust, ← List.append_assoc, hbits]
      simp [BYTE_LENGTH]
    · simp only [List.length_append, List.length_cons, List.length_nil]
      omega

/-! ### Properties of the Frequency Analyzer -/

/-- Probabilities are sorted in descending order of value. -/
def sortedDesc (freq : List (Nat × Frac)) : Prop :=
  freq.Pairwise (fun a b => b.2.toRat ≤ a.2.toRat)

/-- All probability entries are positive fractions with positive denominator. -/
def posFreq (freq : List (Nat × Frac)) : Prop :=
  ∀ p ∈ freq, 0 < p.2.den ∧ 0 < p.2.toRat

/-- The symbols of the frequency list are pairwise distinct. -/
def symsNodup (freq : List (Nat × Frac)) : Prop :=
  (freq.map (fun p => p.1)).Nodup

theorem firstSeen_aux (input : List Nat) :
    ∀ acc : List Nat,
      (∀ c, c ∈ input.foldl
          (fun acc c => if c ∈ acc then acc else acc ++ [c]) acc ↔
        c ∈ acc ∨ c ∈ input) ∧
      (acc.Nodup →
        (input.foldl (fun acc c => if c ∈ acc then acc else acc ++ [c])
          acc).Nodup) := by
  induction input with
  | nil => intro acc; simp
  | cons x input ih =>
    intro acc
    simp only [List.foldl_cons]
    by_cases hx : x ∈ acc
    · rw [if_pos hx]
      obtain ⟨hmem, hnd⟩ := ih acc
      constructor
      · intro c
        rw [hmem c]
        constructor
        · rintro (h | h)
          · exact Or.inl h
          · exact Or.inr (List.mem_cons_of_mem _ h)
        · rintro (h | h)
          · exact Or.inl h
          · rcases List.mem_cons.mp h with rfl | h2
            · exact Or.inl hx
            · exact Or.inr h2
      · exact hnd
    · rw [if_neg hx]
      obtain ⟨hmem, hnd⟩ := ih (acc ++ [x])
      constructor
      · intro c
        rw [hmem c]
        simp only [List.mem_append, List.mem_singleton, List.mem_cons]
        tauto
      · intro h
        apply hnd
        simp [List.nodup_append, h, hx]

theorem mem_firstSeen (input : List Nat) (c : Nat) :
    c ∈ firstSeen input ↔ c ∈ input := by
  rw [firstSeen]
  have := (firstSeen_aux input []).1 c
  rw [this]
  simp

theorem firstSeen_nodup (input : List Nat) : (firstSeen input).Nodup :=
  (firstSeen_aux input []).2 List.nodup_nil

instance : IsTotal (Nat × Nat) countGE :=
  ⟨fun a b => le_total b.2 a.2⟩

instance : IsTrans (Nat × Nat) countGE :=
  ⟨fun _ _ _ h1 h2 => le_trans h2 h1⟩

theorem most_common_perm (input : List Nat) :
    List.Perm (most_common input)
      ((firstSeen input).map (fun c => (c, input.count c))) :=
  List.perm_insertionSort countGE _

theorem most_common_sorted (input : List Nat) :
    (most_common input).Pairwise countGE :=
  List.sorted_insertionSort countGE _

theorem most_common_mem (input : List Nat) (p : Nat × Nat) :
    p ∈ most_common input ↔ p.1 ∈ input ∧ p.2 = input.count p.1 := by
  rw [(most_common_perm input).mem_iff]
  simp only [List.mem_map]
  constructor
  · rintro ⟨c, hc, rfl⟩
    exact ⟨(mem_firstSeen input c).mp hc, rfl⟩
  · rintro ⟨hc, hp⟩
    exact ⟨p.1, (mem_firstSeen input p.1).mpr hc, by rw [← hp]⟩

theorem frequency_syms_nodup (input : List Nat) :
    symsNodup (frequency input).2 := by
  rw [symsNodup, frequency]
  simp only [List.map_map]
  have hfun : ((fun p : Nat × Frac => p.1) ∘
      (fun p : Nat × Nat => (p.1, Frac.ofNats p.2 input.length))) =
      (fun p : Nat × Nat => p.1) := rfl
  rw [hfun]
  have hperm := (most_common_perm input).map (fun p : Nat × Nat => p.1)
  apply hperm.nodup_iff.mpr
  rw [List.map_map]
  have heq : (firstSeen input).map
      ((fun p : Nat × Nat => p.1) ∘ (fun c => (c, input.count c))) =
      firstSeen input :=
    List.map_id'' (fun _ => rfl) _
  rw [heq]
  exact firstSeen_nodup input

theorem frequency_mem (input : List Nat) (p : Nat × Frac) :
    p ∈ (frequency input).2 ↔
      p.1 ∈ input ∧ p.2 = Frac.ofNats (input.count p.1) input.length := by
  rw [frequency]
  simp only [List.mem_map]
  constructor
  · rintro ⟨q, hq, rfl⟩
    obtain ⟨hq1, hq2⟩ := (most_common_mem input q).mp hq
    exact ⟨hq1, by rw [hq2]⟩
  · rintro ⟨hc, hp⟩
    refine ⟨(p.1, input.count p.1), (most_common_mem input _).mpr ⟨hc, rfl⟩, ?_⟩
    rw [← hp]

theorem frequency_pos (input : List Nat) : posFreq (frequency input).2 := by
  intro p hp
  obtain ⟨hmem, hval⟩ := (frequency_mem input p).mp hp
  have hcount : 0 < input.count p.1 := List.count_pos_iff.mpr hmem
  have hlen : 0 < input.length := List.length_pos.mpr (by
    intro h; rw [h] at hmem; exact List.not_mem_nil _ hmem)
  rw [hval]
  exact ⟨Frac.ofNats_den_pos hlen, Frac.ofNats_toRat_pos hcount hlen⟩

theorem frequency_sorted (input : List Nat) : sortedDesc (frequency input).2 := by
  rw [sortedDesc, frequency]
  refine List.Pairwise.map _ ?_ (most_common_sorted input)
  intro a b hab
  simp only [Frac.ofNats_toRat]
  rcases Nat.eq_zero_or_pos input.length with h0 | hpos
  · simp [h0]
  · have hq : (0 : ℚ) < (input.length : ℚ) := by exact_mod_cast hpos
    have hab2 : (b.2 : ℚ) ≤ (a.2 : ℚ) := by exact_mod_cast hab
    exact (div_le_div_right hq).mpr hab2

/-! ### Properties of the encoder dictionary -/

/-- Current codeword-in-progress of a symbol (`[]` when not yet present). -/
def curC (enc : Encoder) (c : Nat) : List Bool := (lookupEnc enc c).getD []

/-- Key list of the encoder, in iteration order. -/
def keys (enc : Encoder) : List Nat := enc.map (fun p => p.1)

theorem any_key_iff (enc : Encoder) (c : Nat) :
    (enc.any (fun p => p.1 = c)) = true ↔ c ∈ keys enc := by
  simp only [keys, List.any_eq_true, List.mem_map, decide_eq_true_eq]

theorem lookupEnc_isSome_iff (enc : Encoder) (c : Nat) :
    (lookupEnc enc c).isSome = true ↔ c ∈ keys enc := by
  rw [lookupEnc, keys]
  induction enc with
  | nil => simp
  | cons p t ih =>
    by_cases hp : p.1 = c
    · simp [List.find?_cons, hp]
    · have hd : (decide (p.1 = c)) = false := by simp [hp]
      simp only [List.find?_cons, hd, List.map_cons, List.mem_cons]
      rw [ih]
      constructor
      · exact Or.inr
      · rintro (h | h)
        · exact absurd h.symm hp
        · exact h

theorem lookupEnc_map_upd (c : Nat) (b : Bool) (x : Nat) :
    ∀ enc : Encoder,
      lookupEnc (enc.map (fun p => if p.1 = c then (p.1, p.2 ++ [b]) else p)) x
        = (lookupEnc enc x).map (fun v => if x = c then v ++ [b] else v) := by
  intro enc
  induction enc with
  | nil => simp [lookupEnc]
  | cons p t ih =>
    simp only [List.map_cons]
    have hk : (if p.1 = c then (p.1, p.2 ++ [b]) else p).1 = p.1 := by
      split <;> rfl
    by_cases hp : p.1 = x
    · by_cases hc : x = c
      · simp [lookupEnc, List.find?_cons, hk, hp, hc]
      · have hpc : ¬ p.1 = c := by rw [hp]; exact hc
        simp [lookupEnc, List.find?_cons, hk, hp, hc, hpc]
    · have hd : (decide ((if p.1 = c then (p.1, p.2 ++ [b]) else p).1 = x))
          = false := by rw [hk]; simp [hp]
      have hd2 : (decide (p.1 = x)) = false := by simp [hp]
      rw [lookupEnc, lookupEnc, List.find?_cons, List.find?_cons, hd, hd2]
      exact ih

theorem lookupEnc_append_not_mem {enc : Encoder} {c : Nat}
    (h : lookupEnc enc c = none) (q : Nat × List Bool) :
    lookupEnc (enc ++ [q]) c = lookupEnc [q] c := by
  rw [lookupEnc, List.find?_append]
  have hf : enc.find? (fun p => decide (p.1 = c)) = none := by
    rw [lookupEnc] at h
    cases hf : enc.find? (fun p => decide (p.1 = c)) with
    | none => rfl
    | some v => rw [hf] at h; simp at h
  rw [hf]
  rfl

theorem curC_appendBit (enc : Encoder) (c : Nat) (b : Bool) (x : Nat) :
    curC (appendBit enc c b) x =
      if x = c then curC enc c ++ [b] else curC enc x := by
  rw [appendBit]
  by_cases hany : enc.any (fun p => p.1 = c)
  · rw [if_pos hany, curC, lookupEnc_map_upd]
    have hsome : (lookupEnc enc c).isSome := by
      rw [lookupEnc_isSome_iff]
      exact (any_key_iff enc c).mp hany
    by_cases hx : x = c
    · subst hx
      obtain ⟨v, hv⟩ := Option.isSome_iff_exists.mp hsome
      simp [hv, curC]
    · cases hl : lookupEnc enc x <;> simp [hx, curC, hl]
  · rw [if_neg hany]
    have hnone : lookupEnc enc c = none := by
      cases hl : lookupEnc enc c with
      | none => rfl
      | some v =>
        exfalso
        apply hany
        rw [any_key_iff enc c, ← lookupEnc_isSome_iff, hl]
        rfl
    by_cases hx : x = c
    · subst hx
      rw [curC, lookupEnc_append_not_mem hnone]
      rw [curC, hnone]
      simp [lookupEnc, List.find?_cons]
    · have hne : lookupEnc (enc ++ [(c, [b])]) x = lookupEnc enc x := by
        rw [lookupEnc, lookupEnc, List.find?_append]
        have hf : List.find? (fun p => decide (p.1 = x)) [(c, [b])] = none := by
          have hcx : ¬ ((c, [b]).1 = x) := fun h => hx h.symm
          simp [List.find?_cons, hcx]
        rw [hf]
        cases enc.find? (fun p => decide (p.1 = x)) <;> rfl
      rw [curC, curC, hne, if_neg hx]
      rfl

theorem keys_appendBit (enc : Encoder) (c : Nat) (b : Bool) :
    keys (appendBit enc c b) =
      if c ∈ keys enc then keys enc else keys enc ++ [c] := by
  rw [appendBit]
  by_cases hany : enc.any (fun p => p.1 = c)
  · rw [if_pos hany, if_pos ((any_key_iff enc c).mp hany), keys, keys,
      List.map_map]
    congr 1
    funext p
    simp only [Function.comp]
    split <;> rfl
  · have hmem : c ∉ keys enc := fun h => hany ((any_key_iff enc c).mpr h)
    rw [if_neg hany, if_neg hmem, keys, keys]
    simp

theorem keys_appendBit_nodup {enc : Encoder} (c : Nat) (b : Bool)
    (h : (keys enc).Nodup) : (keys (appendBit enc c b)).Nodup := by
  rw [keys_appendBit]
  by_cases hm : c ∈ keys enc
  · rwa [if_pos hm]
  · rw [if_neg hm]
    simp [List.nodup_append, h, hm]

theorem mem_keys_appendBit (enc : Encoder) (c : Nat) (b : Bool) (x : Nat) :
    x ∈ keys (appendBit enc c b) ↔ x ∈ keys enc ∨ x = c := by
  rw [keys_appendBit]
  by_cases hm : c ∈ keys enc
  · rw [if_pos hm]
    constructor
    · exact Or.inl
    · rintro (h | rfl)
      · exact h
      · exact hm
  · rw [if_neg hm]
    simp

theorem lookupEnc_of_mem {enc : Encoder} {c : Nat} {v : List Bool}
    (hnd : (keys enc).Nodup) (hm : (c, v) ∈ enc) :
    lookupEnc enc c = some v := by
  induction enc with
  | nil => exact absurd hm (List.not_mem_nil _)
  | cons p t ih =>
    rw [keys] at hnd
    simp only [List.map_cons, List.nodup_cons] at hnd
    rcases List.mem_cons.mp hm with rfl | hm2
    · simp [lookupEnc, List.find?_cons]
    · by_cases hp : p.1 = c
      · exfalso
        apply hnd.1
        rw [hp]
        exact List.mem_map.mpr ⟨(c, v), hm2, rfl⟩
      · have hd : (decide (p.1 = c)) = false := by simp [hp]
        rw [lookupEnc, List.find?_cons, hd]
        exact ih hnd.2 hm2

theorem lookupEnc_mem {enc : Encoder} {c : Nat} {v : List Bool}
    (h : lookupEnc enc c = some v) : (c, v) ∈ enc := by
  rw [lookupEnc] at h
  cases hf : enc.find? (fun p => decide (p.1 = c)) with
  | none => rw [hf] at h; simp at h
  | some p =>
    rw [hf] at h
    have hp := List.find?_some hf
    have hmem := List.mem_of_find?_eq_some hf
    simp only [decide_eq_true_eq] at hp
    simp only [Option.map_some', Option.some.injEq] at h
    have hpe : p = (c, v) := by
      rcases p with ⟨p1, p2⟩
      simp only at hp h
      rw [hp, h]
    rw [← hpe]
    exact hmem

/-! ### Properties of the metadata packer -/

/-- Bounds under which one encoder entry serializes without overflow. -/
def entryOk (c : Nat) (v : List Bool) : Prop :=
  c < 256 ∧ v ≠ [] ∧ v.length < 256 ∧ bitsToNat v < 256

instance (c : Nat) (v : List Bool) : Decidable (entryOk c v) :=
  inferInstanceAs (Decidable (_ ∧ _))

/-- The three header bytes of one encoder entry. -/
def tripleBytes (c : Nat) (v : List Bool) : List Nat :=
  [c, v.length, bitsToNat v]

/-- The header bytes of all encoder entries, in iteration order. -/
def triplesOf (enc : Encoder) : List Nat :=
  (enc.map (fun p => tripleBytes p.1 p.2)).join

theorem tripleOf_eq_some_iff (c : Nat) (v : List Bool) (t : List Nat) :
    tripleOf c v = some t ↔ entryOk c v ∧ t = tripleBytes c v := by
  rw [tripleOf, entryOk, tripleBytes, to_byte, int2]
  by_cases h1 : c < 256
  · by_cases h2 : v.length < 256
    · by_cases h3 : v = []
      · simp [h1, h2, h3, to_byte]
      · by_cases h4 : bitsToNat v < 256
        · simp [h1, h2, h3, h4, to_byte]
          exact comm
        · simp [h1, h2, h3, h4, to_byte]
    · simp [h1, h2, to_byte]
  · simp [h1]

theorem pmLoop_ok : ∀ (enc : Encoder) (acc : List Nat) (bs : List Nat),
    pmLoop enc acc = .ok bs ↔
      (∀ p ∈ enc, entryOk p.1 p.2) ∧ bs = acc ++ triplesOf enc := by
  intro enc
  induction enc with
  | nil =>
    intro acc bs
    simp [pmLoop, triplesOf]
    exact comm
  | cons p t ih =>
    intro acc bs
    rw [pmLoop]
    cases htr : tripleOf p.1 p.2 with
    | none =>
      simp only
      constructor
      · intro h; exact absurd h (by simp)
      · rintro ⟨hall, -⟩
        exfalso
        have := hall p (List.mem_cons_self p t)
        rw [(tripleOf_eq_some_iff p.1 p.2 (tripleBytes p.1 p.2)).mpr
          ⟨this, rfl⟩] at htr
        exact absurd htr (by simp)
    | some tr =>
      obtain ⟨hok, rfl⟩ := (tripleOf_eq_some_iff p.1 p.2 tr).mp htr
      simp only
      rw [ih]
      constructor
      · rintro ⟨hall, rfl⟩
        refine ⟨?_, ?_⟩
        · intro q hq
          rcases List.mem_cons.mp hq with rfl | hq2
          · exact hok
          · exact hall q hq2
        · simp [triplesOf]
      · rintro ⟨hall, rfl⟩
        refine ⟨fun q hq => hall q (List.mem_cons_of_mem p hq), ?_⟩
        simp [triplesOf]

theorem triplesOf_length (enc : Encoder) :
    (triplesOf enc).length = 3 * enc.length := by
  rw [triplesOf]
  induction enc with
  | nil => simp
  | cons p t ih =>
    simp only [List.map_cons, List.join_cons, List.length_append, ih,
      List.length_cons]
    simp [tripleBytes]
    ring

theorem pack_metadata_ok (enc : Encoder) (input_size freqLen : Nat)
    (bs : List Nat) :
    pack_metadata enc input_size freqLen = .ok bs ↔
      freqLen < 256 ∧ input_size < 256 ∧ (∀ p ∈ enc, entryOk p.1 p.2) ∧
        bs = freqLen :: input_size :: triplesOf enc := by
  rw [pack_metadata, to_byte]
  by_cases h1 : freqLen < 256
  · rw [if_pos h1, to_byte]
    by_cases h2 : input_size < 256
    · rw [if_pos h2]
      simp only [h1, h2, true_and]
      rw [pmLoop_ok]
      constructor
      · rintro ⟨ha, rfl⟩; exact ⟨ha, rfl⟩
      · rintro ⟨ha, rfl⟩; exact ⟨ha, rfl⟩
    · rw [if_neg h2]
      simp [h2]
  · rw [if_neg h1]
    simp [h1]

theorem pack_metadata_err_freqLen (enc : Encoder) (input_size freqLen : Nat)
    (h : 256 ≤ freqLen) :
    pack_metadata enc input_size freqLen = .error [] := by
  rw [pack_metadata, to_byte, if_neg (by omega)]

theorem pack_metadata_err_size (enc : Encoder) (input_size freqLen : Nat)
    (h1 : freqLen < 256) (h2 : 256 ≤ input_size) :
    pack_metadata enc input_size freqLen = .error [freqLen] := by
  rw [pack_metadata, to_byte, if_pos h1, to_byte, if_neg (by omega)]

/-! ### Properties of the metadata unpacker -/

/-- The decoder that inverts an encoder table, in table order. -/
def swapEnc (enc : Encoder) : Decoder := enc.map (fun p => (p.2, p.1))

/-- The set of codeword lengths of an encoder, as collected by the unpacker. -/
def valLens (enc : Encoder) : List Nat :=
  (enc.map (fun p => p.2.length)).foldl addIfNew []

theorem mem_foldl_addIfNew : ∀ (lens : List Nat) (vl : List Nat) (x : Nat),
    x ∈ lens.foldl addIfNew vl ↔ x ∈ vl ∨ x ∈ lens := by
  intro lens
  induction lens with
  | nil => intro vl x; simp
  | cons a t ih =>
    intro vl x
    rw [List.foldl_cons, ih, addIfNew]
    by_cases ha : a ∈ vl
    · rw [if_pos ha]
      constructor
      · rintro (h | h)
        · exact Or.inl h
        · exact Or.inr (List.mem_cons_of_mem a h)
      · rintro (h | h)
        · exact Or.inl h
        · rcases List.mem_cons.mp h with rfl | h2
          · exact Or.inl ha
          · exact Or.inr h2
    · rw [if_neg ha]
      simp only [List.mem_append, List.mem_singleton, List.mem_cons]
      tauto

theorem mem_valLens (enc : Encoder) (x : Nat) :
    x ∈ valLens enc ↔ x ∈ enc.map (fun p => p.2.length) := by
  rw [valLens, mem_foldl_addIfNew]
  simp

theorem insertOverwrite_not_mem {d : Decoder} {v : List Bool}
    (h : v ∉ d.map (fun p => p.1)) (k : Nat) :
    insertOverwrite d v k = d ++ [(v, k)] := by
  rw [insertOverwrite, if_neg]
  intro hany
  simp only [List.any_eq_true, decide_eq_true_eq] at hany
  obtain ⟨p, hp, hv⟩ := hany
  exact h (List.mem_map.mpr ⟨p, hp, hv⟩)

theorem umLoop_triples :
    ∀ (enc : Encoder) (dec : Decoder) (vl rest : List Nat),
      (∀ p ∈ enc, p.2 ≠ []) →
      (dec.map (fun p => p.1) ++ enc.map (fun p => p.2)).Nodup →
      umLoop (3 * enc.length) (triplesOf enc ++ rest) dec vl =
        (dec ++ swapEnc enc,
          (enc.map (fun p => p.2.length)).foldl addIfNew vl, rest) := by
  intro enc
  induction enc with
  | nil =>
    intro dec vl rest _ _
    simp [umLoop, triplesOf, swapEnc]
  | cons p t ih =>
    intro dec vl rest hne hnd
    have h3 : 3 * (p :: t).length = 3 * t.length + 3 := by
      simp [List.length_cons]; ring
    rw [h3]
    have hstep : umLoop (3 * t.length + 3) (triplesOf (p :: t) ++ rest) dec vl =
        umLoop (3 * t.length) (triplesOf t ++ rest)
          (insertOverwrite dec (rjust (natToBits (bitsToNat p.2)) p.2.length)
            p.1)
          (addIfNew vl p.2.length) := by
      rw [show triplesOf (p :: t) = p.1 :: p.2.length :: bitsToNat p.2 ::
        triplesOf t from by simp [triplesOf, tripleBytes]]
      rfl
    rw [hstep]
    have hrj : rjust (natToBits (bitsToNat p.2)) p.2.length = p.2 :=
      rjust_natToBits_bitsToNat (hne p (List.mem_cons_self p t))
    rw [hrj]
    have hp2 : p.2 ∉ dec.map (fun q => q.1) := by
      intro hmem
      have hdisj := (List.nodup_append.mp hnd).2.2
      exact hdisj hmem (by simp)
    rw [insertOverwrite_not_mem hp2]
    have hnd2 : ((dec ++ [(p.2, p.1)]).map (fun q => q.1) ++
        t.map (fun q => q.2)).Nodup := by
      simp only [List.map_append, List.map_cons, List.map_nil] at hnd ⊢
      rw [List.append_assoc]
      simpa using hnd
    rw [ih _ _ rest (fun q hq => hne q (List.mem_cons_of_mem p hq)) hnd2]
    simp [swapEnc, List.append_assoc]

theorem unpack_metadata_header (enc : Encoder) (T : Nat) (rest : List Nat)
    (hne : ∀ p ∈ enc, p.2 ≠ []) (hnd : (enc.map (fun p => p.2)).Nodup) :
    unpack_metadata (enc.length :: T :: (triplesOf enc ++ rest)) =
      (T, swapEnc enc, valLens enc, rest) := by
  rw [unpack_metadata]
  have h1 : readByte (enc.length :: T :: (triplesOf enc ++ rest)) =
      (enc.length, T :: (triplesOf enc ++ rest)) := rfl
  have h2 : readByte (T :: (triplesOf enc ++ rest)) =
      (T, triplesOf enc ++ rest) := rfl
  simp only [h1, h2]
  rw [umLoop_triples enc [] [] rest hne (by simpa using hnd)]
  simp [valLens]

theorem dlookup_of_mem {d : Decoder} {v : List Bool} {k : Nat}
    (hnd : (d.map (fun p => p.1)).Nodup) (hm : (v, k) ∈ d) :
    dlookup d v = some k := by
  induction d with
  | nil => exact absurd hm (List.not_mem_nil _)
  | cons p t ih =>
    simp only [List.map_cons, List.nodup_cons] at hnd
    rcases List.mem_cons.mp hm with rfl | hm2
    · simp [dlookup, List.find?_cons]
    · by_cases hp : p.1 = v
      · exfalso
        apply hnd.1
        rw [hp]
        exact List.mem_map.mpr ⟨(v, k), hm2, rfl⟩
      · have hd : (decide (p.1 = v)) = false := by simp [hp]
        rw [dlookup, List.find?_cons, hd]
        exact ih hnd.2 hm2

theorem dlookup_eq_none {d : Decoder} {v : List Bool}
    (h : v ∉ d.map (fun p => p.1)) : dlookup d v = none := by
  rw [dlookup]
  have : d.find? (fun p => decide (p.1 = v)) = none := by
    rw [List.find?_eq_none]
    intro p hp
    simp only [decide_eq_true_eq]
    intro he
    exact h (List.mem_map.mpr ⟨p, hp, he⟩)
  rw [this]
  rfl

/-! ### Index-level view of the frequency list -/

/-- Symbol at an index of the frequency list. -/
def symAt (freq : List (Nat × Frac)) (i : Nat) : Nat :=
  (freq.getD i (0, Frac.zero)).1

/-- Probability value at an index of the frequency list. -/
def probAt (freq : List (Nat × Frac)) (i : Nat) : ℚ :=
  (freq.getD i (0, Frac.zero)).2.toRat

/-- Symbols of the index range `s, s+1, ..., s+cnt-1`. -/
def symsIn (freq : List (Nat × Frac)) (s cnt : Nat) : List Nat :=
  (List.range cnt).map (fun k => symAt freq (s + k))

/-- Sum of the probability values of the index range `s, ..., s+cnt-1`. -/
def probSum (freq : List (Nat × Frac)) (s cnt : Nat) : ℚ :=
  ((List.range cnt).map (fun k => probAt freq (s + k))).sum

theorem mem_symsIn (freq : List (Nat × Frac)) (s cnt x : Nat) :
    x ∈ symsIn freq s cnt ↔ ∃ k, k < cnt ∧ symAt freq (s + k) = x := by
  simp [symsIn, List.mem_map, List.mem_range]

theorem probSum_zero (freq : List (Nat × Frac)) (s : Nat) :
    probSum freq s 0 = 0 := by simp [probSum]

theorem probSum_succ_left (freq : List (Nat × Frac)) (s cnt : Nat) :
    probSum freq s (cnt + 1) = probAt freq s + probSum freq (s + 1) cnt := by
  rw [probSum, List.range_succ_eq_map]
  simp only [List.map_cons, List.sum_cons, Nat.add_zero, List.map_map]
  congr 1
  rw [probSum]
  congr 1
  apply List.map_congr_left
  intro k _
  simp only [Function.comp]
  congr 1
  omega

theorem probSum_succ_right (freq : List (Nat × Frac)) (s cnt : Nat) :
    probSum freq s (cnt + 1) = probSum freq s cnt + probAt freq (s + cnt) := by
  rw [probSum, List.range_succ]
  simp [probSum]

theorem probAt_pos {freq : List (Nat × Frac)} (hpos : posFreq freq) {i : Nat}
    (hi : i < freq.length) : 0 < probAt freq i := by
  rw [probAt]
  have hmem : freq.getD i (0, Frac.zero) ∈ freq := by
    rw [List.getD_eq_getElem freq _ hi]
    exact List.getElem_mem hi
  exact (hpos _ hmem).2

theorem probSum_nonneg {freq : List (Nat × Frac)} (hpos : posFreq freq)
    {s cnt : Nat} (h : s + cnt ≤ freq.length) : 0 ≤ probSum freq s cnt := by
  induction cnt with
  | zero => rw [probSum_zero]
  | succ n ih =>
    rw [probSum_succ_right]
    have h1 : 0 ≤ probSum freq s n := ih (by omega)
    have h2 : 0 < probAt freq (s + n) := probAt_pos hpos (by omega)
    linarith

theorem probSum_lt_of_lt {freq : List (Nat × Frac)} (hpos : posFreq freq)
    {s k k2 : Nat} (hk : k < k2) (h : s + k2 ≤ freq.length) :
    probSum freq s k < probSum freq s k2 := by
  induction k2 with
  | zero => omega
  | succ n ih =>
    rw [probSum_succ_right]
    have h2 : 0 < probAt freq (s + n) := probAt_pos hpos (by omega)
    rcases Nat.lt_succ_iff_lt_or_eq.mp hk with h3 | rfl
    · have := ih h3 (by omega)
      linarith
    · linarith

theorem symAt_inj {freq : List (Nat × Frac)} (hsnd : symsNodup freq)
    {i j : Nat} (hi : i < freq.length) (hj : j < freq.length) (hne : i ≠ j) :
    symAt freq i ≠ symAt freq j := by
  intro he
  rw [symsNodup] at hsnd
  have hmap : ∀ {k : Nat} (hk : k < freq.length),
      symAt freq k = (freq.map (fun p => p.1)).get ⟨k, by simpa using hk⟩ := by
    intro k hk
    rw [symAt, List.getD_eq_getElem freq _ hk]
    simp
  rw [hmap hi, hmap hj] at he
  have := (List.Nodup.get_inj_iff hsnd).mp he
  simp only [Fin.mk.injEq] at this
  exact hne this

theorem pyGet_natCast (l : List (Nat × Frac)) (i : Nat) :
    pyGet l (i : Int) = l.get? i := by
  rw [pyGet, if_pos (by positivity)]
  congr 1

theorem pyGet_lt {l : List (Nat × Frac)} {i : Nat} (h : i < l.length) :
    pyGet l (i : Int) = some (l.getD i (0, Frac.zero)) := by
  rw [pyGet_natCast, List.getD_eq_getElem l _ h, List.get?_eq_getElem?,
    List.getElem?_eq_getElem h]

/-! ### Characterization of one split pass -/

theorem getD_mem {freq : List (Nat × Frac)} {i : Nat} (h : i < freq.length) :
    freq.getD i (0, Frac.zero) ∈ freq := by
  rw [List.getD_eq_getElem freq _ h]
  exact List.getElem_mem h

theorem rangeSum_spec {freq : List (Nat × Frac)}
    (hden : ∀ p ∈ freq, 0 < p.2.den) :
    ∀ (cnt s : Nat), s + cnt ≤ freq.length →
      ∃ f, rangeSum freq (s : Int) cnt = some f ∧
        f.toRat = probSum freq s cnt ∧ 0 < f.den := by
  intro cnt
  induction cnt with
  | zero =>
    intro s _
    exact ⟨Frac.zero, rfl, by rw [Frac.toRat_zero, probSum_zero],
      Frac.zero_den_pos⟩
  | succ n ih =>
    intro s hs
    have hslt : s < freq.length := by omega
    obtain ⟨f, hf, hfr, hfd⟩ := ih (s + 1) (by omega)
    have hcast : ((s : Int) + 1) = ((s + 1 : Nat) : Int) := by push_cast; ring
    have hentry := hden _ (getD_mem hslt)
    refine ⟨Frac.add (freq.getD s (0, Frac.zero)).2 f, ?_, ?_, ?_⟩
    · rw [rangeSum, pyGet_lt hslt, hcast, hf]
      rfl
    · rw [Frac.toRat_add hentry hfd, hfr, probSum_succ_left, probAt]
    · exact Frac.add_den_pos hentry hfd

/-- The bit assigned at offset `k` of a walk that starts with running
partition value `r0` against threshold value `hR`. -/
def bitAt (freq : List (Nat × Frac)) (r0 hR : ℚ) (s k : Nat) : Bool :=
  ! decide (r0 + probSum freq s k ≤ hR)

theorem bitAt_shift (freq : List (Nat × Frac)) (r0 hR : ℚ) (s j : Nat) :
    bitAt freq (r0 + probAt freq s) hR (s + 1) j = bitAt freq r0 hR s (j + 1) := by
  rw [bitAt, bitAt, probSum_succ_left]
  congr 2
  ring

theorem symsIn_succ (freq : List (Nat × Frac)) (s cnt : Nat) :
    symsIn freq s (cnt + 1) = symAt freq s :: symsIn freq (s + 1) cnt := by
  rw [symsIn, List.range_succ_eq_map]
  simp only [List.map_cons, Nat.add_zero, List.map_map]
  congr 1
  rw [symsIn]
  apply List.map_congr_left
  intro k _
  simp only [Function.comp]
  congr 1
  omega

set_option maxHeartbeats 1000000 in
theorem splitWalk_spec (freq : List (Nat × Frac)) (half : Frac)
    (hhden : 0 < half.den) (hden : ∀ p ∈ freq, 0 < p.2.den)
    (hsnd : symsNodup freq) :
    ∀ (cnt s : Nat) (part : Frac) (pidx : Int) (enc : Encoder),
      s + cnt ≤ freq.length → 0 < part.den →
      ∃ enc2 pidx2,
        splitWalk freq half (s : Int) cnt part pidx enc = some (enc2, pidx2) ∧
        (∀ k, k < cnt → curC enc2 (symAt freq (s + k)) =
          curC enc (symAt freq (s + k)) ++
            [bitAt freq part.toRat half.toRat s k]) ∧
        (∀ x, x ∉ symsIn freq s cnt → curC enc2 x = curC enc x) ∧
        (∀ x, x ∈ keys enc2 ↔ x ∈ keys enc ∨ x ∈ symsIn freq s cnt) ∧
        ((keys enc).Nodup → (keys enc2).Nodup) ∧
        (0 ≤ pidx → pidx2 = pidx) ∧
        (pidx = -1 →
          ((∀ k, k < cnt →
              bitAt freq part.toRat half.toRat s k = false) ∧ pidx2 = -1) ∨
          (∃ k0, k0 < cnt ∧ bitAt freq part.toRat half.toRat s k0 = true ∧
            (∀ j, j < k0 → bitAt freq part.toRat half.toRat s j = false) ∧
            pidx2 = (s : Int) + k0)) := by
  intro cnt
  induction cnt with
  | zero =>
    intro s part pidx enc _ _
    refine ⟨enc, pidx, rfl, by omega, fun x _ => rfl,
      fun x => by simp [symsIn], fun h => h, fun _ => rfl, fun hp => ?_⟩
    exact Or.inl ⟨by omega, hp⟩
  | succ n ih =>
    intro s part pidx enc hs hpden
    have hslt : s < freq.length := by omega
    set entry := freq.getD s (0, Frac.zero) with hentry
    have hedeno : 0 < entry.2.den := hden _ (getD_mem hslt)
    have hsym : entry.1 = symAt freq s := rfl
    have hcast : ((s : Int) + 1) = ((s + 1 : Nat) : Int) := by push_cast; ring
    have hr0 : (Frac.add part entry.2).toRat = part.toRat + probAt freq s := by
      rw [Frac.toRat_add hpden hedeno, probAt]
    have hnotin : symAt freq s ∉ symsIn freq (s + 1) n := by
      rw [mem_symsIn]
      rintro ⟨k, hk, he⟩
      exact symAt_inj hsnd (by omega) hslt (by omega) he
    by_cases hle : Frac.le part half
    · have hb0 : bitAt freq part.toRat half.toRat s 0 = false := by
        rw [bitAt, probSum_zero]
        simp only [add_zero, Bool.not_eq_false', decide_eq_true_eq]
        exact (Frac.le_iff hpden hhden).mp hle
      obtain ⟨enc2, pidx2, heq, h1, h2, hk, hknd, hp1, hp2⟩ :=
        ih (s + 1) (Frac.add part entry.2) pidx (appendBit enc entry.1 false)
          (by omega) (Frac.add_den_pos hpden hedeno)
      refine ⟨enc2, pidx2, ?_, ?_, ?_, ?_, ?_, hp1, ?_⟩
      · rw [splitWalk, pyGet_lt hslt, ← hentry]
        simp only [Option.some_bind, if_pos hle]
        rw [hcast]
        exact heq
      · intro k hken
        rw [hr0] at h1
        cases k with
        | zero =>
          rw [Nat.add_zero, h2 _ hnotin, hsym, curC_appendBit, if_pos rfl,
            hb0]
        | succ j =>
          have hj := h1 j (by omega)
          rw [show s + 1 + j = s + (j + 1) from by omega] at hj
          rw [hj, bitAt_shift, hsym, curC_appendBit, if_neg]
          exact symAt_inj hsnd (by omega) hslt (by omega)
      · intro x hx
        rw [symsIn_succ] at hx
        have hx1 : x ≠ symAt freq s := fun he => hx (he ▸ List.mem_cons_self _ _)
        have hx2 : x ∉ symsIn freq (s + 1) n :=
          fun he => hx (List.mem_cons_of_mem _ he)
        rw [h2 x hx2, hsym, curC_appendBit, if_neg hx1]
      · intro x
        rw [hk x, hsym, mem_keys_appendBit, symsIn_succ]
        simp only [List.mem_cons]
        tauto
      · intro hnd
        exact hknd (keys_appendBit_nodup _ _ hnd)
      · intro hpm
        rw [hr0] at hp2
        rcases hp2 hpm with ⟨hall, hpe⟩ | ⟨k0, hk0, hbt, hbf, hpe⟩
        · left
          refine ⟨?_, hpe⟩
          intro k hken
          cases k with
          | zero => exact hb0
          | succ j => rw [← bitAt_shift]; exact hall j (by omega)
        · right
          refine ⟨k0 + 1, by omega, by rw [← bitAt_shift]; exact hbt, ?_, ?_⟩
          · intro j hj
            cases j with
            | zero => exact hb0
            | succ j2 => rw [← bitAt_shift]; exact hbf j2 (by omega)
          · rw [hpe]
            push_cast
            ring
    · have hb0 : bitAt freq part.toRat half.toRat s 0 = true := by
        rw [bitAt, probSum_zero]
        simp only [add_zero, Bool.not_eq_true', decide_eq_false_iff_not]
        exact fun hc => hle ((Frac.le_iff hpden hhden).mpr hc)
      obtain ⟨enc2, pidx2, heq, h1, h2, hk, hknd, hp1, hp2⟩ :=
        ih (s + 1) (Frac.add part entry.2) (if pidx < 0 then (s : Int) else pidx)
          (appendBit enc entry.1 true)
          (by omega) (Frac.add_den_pos hpden hedeno)
      refine ⟨enc2, pidx2, ?_, ?_, ?_, ?_, ?_, ?_, ?_⟩
      · rw [splitWalk, pyGet_lt hslt, ← hentry]
        simp only [Option.some_bind, if_neg hle]
        rw [hcast]
        exact heq
      · intro k hken
        rw [hr0] at h1
        cases k with
        | zero =>
          rw [Nat.add_zero, h2 _ hnotin, hsym, curC_appendBit, if_pos rfl,
            hb0]
        | succ j =>
          have hj := h1 j (by omega)
          rw [show s + 1 + j = s + (j + 1) from by omega] at hj
          rw [hj, bitAt_shift, hsym, curC_appendBit, if_neg]
          exact symAt_inj hsnd (by omega) hslt (by omega)
      · intro x hx
        rw [symsIn_succ] at hx
        have hx1 : x ≠ symAt freq s := fun he => hx (he ▸ List.mem_cons_self _ _)
        have hx2 : x ∉ symsIn freq (s + 1) n :=
          fun he => hx (List.mem_cons_of_mem _ he)
        rw [h2 x hx2, hsym, curC_appendBit, if_neg hx1]
      · intro x
        rw [hk x, hsym, mem_keys_appendBit, symsIn_succ]
        simp only [List.mem_cons]
        tauto
      · intro hnd
        exact hknd (keys_appendBit_nodup _ _ hnd)
      · intro hge
        have : ¬ pidx < 0 := by omega
        rw [if_neg this] at hp1
        exact hp1 hge
      · intro hpm
        have : pidx < 0 := by omega
        rw [if_pos this] at hp1
        right
        refine ⟨0, by omega, hb0, by omega, ?_⟩
        rw [hp1 (by positivity)]
        push_cast
        ring

/-! ### Separation of codewords -/

/-- Two bit strings differ at some position that both of them have: they
agree on a common prefix and then split on distinct bits. Extending either
string on the right preserves this. -/
def codeSep (a b : List Bool) : Prop :=
  ∃ p x y a2 b2, x ≠ y ∧ a = p ++ x :: a2 ∧ b = p ++ y :: b2

theorem codeSep_symm {a b : List Bool} (h : codeSep a b) : codeSep b a := by
  obtain ⟨p, x, y, a2, b2, hxy, ha, hb⟩ := h
  exact ⟨p, y, x, b2, a2, fun he => hxy he.symm, hb, ha⟩

theorem codeSep_extend {a b : List Bool} (h : codeSep a b) (u v : List Bool) :
    codeSep (a ++ u) (b ++ v) := by
  obtain ⟨p, x, y, a2, b2, hxy, ha, hb⟩ := h
  exact ⟨p, x, y, a2 ++ u, b2 ++ v, hxy, by rw [ha]; simp, by rw [hb]; simp⟩

theorem codeSep_branch {c : List Bool} {x y : Bool} (hxy : x ≠ y)
    (u v : List Bool) : codeSep (c ++ x :: u) (c ++ y :: v) :=
  ⟨c, x, y, u, v, hxy, rfl, rfl⟩

theorem codeSep_not_isPref {a b : List Bool} (h : codeSep a b) :
    ¬ ∃ t, a ++ t = b := by
  rintro ⟨t, ht⟩
  obtain ⟨p, x, y, a2, b2, hxy, rfl, hb⟩ := h
  rw [List.append_assoc] at ht
  have h2 := ht.trans hb
  have := List.append_cancel_left h2
  simp only [List.cons_append, List.cons.injEq] at this
  exact hxy this.1

theorem codeSep_ne {a b : List Bool} (h : codeSep a b) : a ≠ b := by
  intro he
  exact codeSep_not_isPref h ⟨[], by rw [List.append_nil, he]⟩

/-! ### The work-stack invariant of the Code Builder -/

/-- Index `i` lies inside the inclusive index range `r`. -/
def inRange (r : Int × Int) (i : Nat) : Prop :=
  r.1 ≤ (i : Int) ∧ (i : Int) ≤ r.2

/-- Invariant of `encodeLoop`: stack ranges are valid and pairwise disjoint,
symbols in a common stack range share their codeword-in-progress, symbols not
sharing a range are already separated, and the dictionary has distinct keys
drawn from the frequency list. -/
structure EncInv (freq : List (Nat × Frac)) (stack : List (Int × Int))
    (enc : Encoder) : Prop where
  valid : ∀ r ∈ stack, 0 ≤ r.1 ∧ r.1 ≤ r.2 ∧ r.2 < (freq.length : Int)
  disj : stack.Pairwise (fun r r2 => r.2 < r2.1 ∨ r2.2 < r.1)
  eqcur : ∀ r ∈ stack, ∀ i j : Nat, inRange r i → inRange r j →
    curC enc (symAt freq i) = curC enc (symAt freq j)
  sep : ∀ i j : Nat, i < freq.length → j < freq.length → i ≠ j →
    (∀ r ∈ stack, ¬(inRange r i ∧ inRange r j)) →
    codeSep (curC enc (symAt freq i)) (curC enc (symAt freq j))
  keysub : ∀ k ∈ keys enc, k ∈ freq.map (fun p => p.1)
  keynd : (keys enc).Nodup

theorem probAt_mono {freq : List (Nat × Frac)} (hsorted : sortedDesc freq)
    {i j : Nat} (hij : i ≤ j) (hj : j < freq.length) :
    probAt freq j ≤ probAt freq i := by
  rcases Nat.eq_or_lt_of_le hij with rfl | hlt
  · exact le_refl _
  · rw [sortedDesc, List.pairwise_iff_get] at hsorted
    have := hsorted ⟨i, by omega⟩ ⟨j, hj⟩ (by simpa using hlt)
    rw [probAt, probAt, List.getD_eq_getElem freq _ (by omega : i < freq.length),
      List.getD_eq_getElem freq _ hj]
    simpa using this

theorem probSum_le_of_le {freq : List (Nat × Frac)} (hpos : posFreq freq)
    {s k k2 : Nat} (hk : k ≤ k2) (h : s + k2 ≤ freq.length) :
    probSum freq s k ≤ probSum freq s k2 := by
  rcases Nat.eq_or_lt_of_le hk with rfl | hlt
  · exact le_refl _
  · exact le_of_lt (probSum_lt_of_lt hpos hlt h)

theorem probSum_ge_count_mul_last {freq : List (Nat × Frac)}
    (hsorted : sortedDesc freq) (hpos : posFreq freq) {s : Nat} :
    ∀ {k cnt : Nat}, k ≤ cnt → s + cnt ≤ freq.length →
    (k : ℚ) * probAt freq (s + cnt - 1) ≤ probSum freq s k := by
  intro k
  induction k with
  | zero => intro cnt _ _; simp [probSum_zero]
  | succ m ih =>
    intro cnt hk hcnt
    rw [probSum_succ_right]
    have h1 := ih (show m ≤ cnt by omega) hcnt
    have h2 : probAt freq (s + cnt - 1) ≤ probAt freq (s + m) := by
      apply probAt_mono hsorted (by omega) (by omega)
    push_cast
    linarith

theorem symAt_notin_symsIn {freq : List (Nat × Frac)} (hsnd : symsNodup freq)
    {i s cnt : Nat} (hi : i < freq.length) (hcnt : s + cnt ≤ freq.length)
    (hout : i < s ∨ s + cnt ≤ i) : symAt freq i ∉ symsIn freq s cnt := by
  rw [mem_symsIn]
  rintro ⟨k, hk, he⟩
  exact symAt_inj hsnd (by omega) hi (by omega) he

set_option maxHeartbeats 1000000 in
theorem splitRange_spec (freq : List (Nat × Frac)) (hsorted : sortedDesc freq)
    (hpos : posFreq freq) (hsnd : symsNodup freq) (s cnt : Nat)
    (enc : Encoder) (hcnt : 3 ≤ cnt) (hle : s + cnt ≤ freq.length) :
    ∃ tot enc2 k0,
      rangeSum freq (s : Int) cnt = some tot ∧
      splitWalk freq (Frac.half tot) (s : Int) cnt Frac.zero (-1) enc =
        some (enc2, (s : Int) + (k0 : Nat)) ∧
      1 ≤ k0 ∧ k0 + 1 ≤ cnt ∧
      (∀ k, k < k0 → curC enc2 (symAt freq (s + k)) =
        curC enc (symAt freq (s + k)) ++ [false]) ∧
      (∀ k, k0 ≤ k → k < cnt → curC enc2 (symAt freq (s + k)) =
        curC enc (symAt freq (s + k)) ++ [true]) ∧
      (∀ x, x ∉ symsIn freq s cnt → curC enc2 x = curC enc x) ∧
      (∀ x, x ∈ keys enc2 ↔ x ∈ keys enc ∨ x ∈ symsIn freq s cnt) ∧
      ((keys enc).Nodup → (keys enc2).Nodup) := by
  have hden : ∀ p ∈ freq, 0 < p.2.den := fun p hp => (hpos p hp).1
  obtain ⟨tot, htot, htr, htd⟩ := rangeSum_spec hden cnt s hle
  have hhd : 0 < (Frac.half tot).den := Frac.half_den_pos htd
  have hhr : (Frac.half tot).toRat = probSum freq s cnt / 2 := by
    rw [Frac.toRat_half, htr]
  obtain ⟨enc2, pidx2, heq, h1, h2, hk, hknd, -, hp2⟩ :=
    splitWalk_spec freq (Frac.half tot) hhd hden hsnd cnt s Frac.zero (-1) enc
      hle Frac.zero_den_pos
  have hbit : ∀ k, bitAt freq Frac.zero.toRat (Frac.half tot).toRat s k =
      ! decide (probSum freq s k ≤ probSum freq s cnt / 2) := by
    intro k
    rw [bitAt, Frac.toRat_zero, hhr, zero_add]
  rcases hp2 rfl with ⟨hall, -⟩ | ⟨k0, hk0, hbt, hbf, hpe⟩
  · exfalso
    have hlast := hall (cnt - 1) (by omega)
    rw [hbit] at hlast
    simp only [Bool.not_eq_false', decide_eq_true_eq] at hlast
    have hsplit : probSum freq s cnt =
        probSum freq s (cnt - 1) + probAt freq (s + (cnt - 1)) := by
      rw [← probSum_succ_right]
      congr 1
      omega
    have hge : ((cnt - 1 : Nat) : ℚ) * probAt freq (s + cnt - 1) ≤
        probSum freq s (cnt - 1) :=
      probSum_ge_count_mul_last hsorted hpos (by omega) hle
    have hlp : 0 < probAt freq (s + cnt - 1) := probAt_pos hpos (by omega)
    have hc2 : (2 : ℚ) ≤ ((cnt - 1 : Nat) : ℚ) := by
      have : (2 : Nat) ≤ cnt - 1 := by omega
      exact_mod_cast this
    have hidx : s + (cnt - 1) = s + cnt - 1 := by omega
    rw [hidx] at hsplit
    nlinarith
  · have hk01 : 1 ≤ k0 := by
      by_contra hc
      have hk00 : k0 = 0 := by omega
      subst hk00
      rw [hbit] at hbt
      simp only [Bool.not_eq_eq_eq_not, Bool.not_true, decide_eq_false_iff_not,
        probSum_zero] at hbt
      apply hbt
      have : (0 : ℚ) ≤ probSum freq s cnt := probSum_nonneg hpos hle
      linarith
    refine ⟨tot, enc2, k0, htot, by rw [heq, hpe], hk01, by omega, ?_, ?_, h2,
      hk, hknd⟩
    · intro k hkk
      rw [h1 k (by omega), hbit]
      have hbfk := hbf k hkk
      rw [hbit] at hbfk
      simp only [Bool.not_eq_false', decide_eq_true_eq] at hbfk
      simp [hbfk]
    · intro k hk0k hkcnt
      rw [h1 k hkcnt, hbit]
      have hbtk : ¬ (probSum freq s k0 ≤ probSum freq s cnt / 2) := by
        rw [hbit] at hbt
        simpa using hbt
      have hmono : probSum freq s k0 ≤ probSum freq s k :=
        probSum_le_of_le hpos hk0k (by omega)
      have : ¬ (probSum freq s k ≤ probSum freq s cnt / 2) := by
        intro hc
        exact hbtk (le_trans hmono hc)
      simp [this]

theorem symAt_mem_map {freq : List (Nat × Frac)} {i : Nat}
    (hi : i < freq.length) : symAt freq i ∈ freq.map (fun p => p.1) :=
  List.mem_map.mpr ⟨freq.getD i (0, Frac.zero), getD_mem hi, rfl⟩

set_option maxHeartbeats 2000000 in
theorem encodeLoop_prefixfree (freq : List (Nat × Frac))
    (hsorted : sortedDesc freq) (hpos : posFreq freq) (hsnd : symsNodup freq) :
    ∀ (fuel : Nat) (stack : List (Int × Int)) (enc enc2 : Encoder),
      EncInv freq stack enc →
      encodeLoop freq fuel stack enc = some enc2 →
      (∀ i j : Nat, i < freq.length → j < freq.length → i ≠ j →
        codeSep (curC enc2 (symAt freq i)) (curC enc2 (symAt freq j))) ∧
      (∀ k ∈ keys enc2, k ∈ freq.map (fun p => p.1)) ∧
      (keys enc2).Nodup := by
  intro fuel
  induction fuel with
  | zero => intro stack enc enc2 _ h; exact absurd h (by simp [encodeLoop])
  | succ fuel ih =>
    intro stack enc enc2 inv h
    cases stack with
    | nil =>
      rw [encodeLoop] at h
      obtain rfl : enc = enc2 := by simpa using h
      refine ⟨?_, inv.keysub, inv.keynd⟩
      intro i j hi hj hne
      exact inv.sep i j hi hj hne (fun r hr => absurd hr (List.not_mem_nil r))
    | cons hd rest =>
      rcases hd with ⟨s, e⟩
      obtain ⟨h0s, hse, hen⟩ := inv.valid (s, e) (List.mem_cons_self _ _)
      rw [encodeLoop] at h
      by_cases heq : s = e
      · rw [if_pos heq] at h
        apply ih rest enc enc2 ?_ h
        refine ⟨fun r hr => inv.valid r (List.mem_cons_of_mem _ hr),
          inv.disj.of_cons,
          fun r hr => inv.eqcur r (List.mem_cons_of_mem _ hr),
          ?_, inv.keysub, inv.keynd⟩
        intro i j hi hj hne hnc
        apply inv.sep i j hi hj hne
        intro r hr
        rcases List.mem_cons.mp hr with rfl | hr2
        · rintro ⟨⟨hi1, hi2⟩, ⟨hj1, hj2⟩⟩
          simp only at hi1 hi2 hj1 hj2
          apply hne
          have : (i : Int) = (j : Int) := by omega
          exact_mod_cast this
        · exact hnc r hr2
      · rw [if_neg heq] at h
        set s' := s.toNat with hs'def
        set e' := e.toNat with he'def
        have hsc : s = (s' : Int) := (Int.toNat_of_nonneg h0s).symm
        have hec : e = (e' : Int) := (Int.toNat_of_nonneg (by omega)).symm
        have hs'n : s' < freq.length := by omega
        have he'n : e' < freq.length := by omega
        have hs'e' : s' ≤ e' := by omega
        by_cases hpair : e - s = 1
        · rw [if_pos hpair] at h
          have he's' : e' = s' + 1 := by omega
          rw [hsc, hec, pyGet_lt hs'n, pyGet_lt he'n] at h
          set a := freq.getD s' (0, Frac.zero) with hadef
          set b := freq.getD e' (0, Frac.zero) with hbdef
          have ha1 : a.1 = symAt freq s' := rfl
          have hb1 : b.1 = symAt freq e' := rfl
          set enc' := appendBit (appendBit enc a.1 false) b.1 true with henc'
          have hsne : symAt freq s' ≠ symAt freq e' :=
            symAt_inj hsnd hs'n he'n (by omega)
          have hcur : ∀ x, curC enc' x =
              if x = symAt freq e' then curC enc (symAt freq e') ++ [true]
              else if x = symAt freq s' then curC enc (symAt freq s') ++ [false]
              else curC enc x := by
            intro x
            rw [henc', curC_appendBit, hb1, ha1]
            by_cases hx1 : x = symAt freq e'
            · rw [if_pos hx1, if_pos hx1, curC_appendBit,
                if_neg (fun hc => hsne hc.symm)]
            · rw [if_neg hx1, curC_appendBit, if_neg hx1]
          have hext : ∀ x, ∃ u, curC enc' x = curC enc x ++ u := by
            intro x
            rw [hcur]
            by_cases hx1 : x = symAt freq e'
            · exact ⟨[true], by rw [if_pos hx1, hx1]⟩
            · rw [if_neg hx1]
              by_cases hx2 : x = symAt freq s'
              · exact ⟨[false], by rw [if_pos hx2, hx2]⟩
              · exact ⟨[], by rw [if_neg hx2, List.append_nil]⟩
          have houtside : ∀ r ∈ rest, ∀ i : Nat, inRange r i →
              i ≠ s' ∧ i ≠ e' := by
            intro r hr i hir
            have hrel := List.rel_of_pairwise_cons inv.disj hr
            obtain ⟨hir1, hir2⟩ := hir
            simp only at hrel
            rcases hrel with hlt | hlt
            · refine ⟨fun hc => ?_, fun hc => ?_⟩ <;> (subst hc; omega)
            · refine ⟨fun hc => ?_, fun hc => ?_⟩ <;> (subst hc; omega)
          apply ih rest enc' enc2 ?_ h
          refine ⟨fun r hr => inv.valid r (List.mem_cons_of_mem _ hr),
            inv.disj.of_cons, ?_, ?_, ?_, ?_⟩
          · intro r hr i j hir hjr
            obtain ⟨hi1, hi2⟩ := houtside r hr i hir
            obtain ⟨hj1, hj2⟩ := houtside r hr j hjr
            have hin : i < freq.length := by
              obtain ⟨hv1, hv2, hv3⟩ := inv.valid r (List.mem_cons_of_mem _ hr)
              obtain ⟨hir1, hir2⟩ := hir
              omega
            have hjn : j < freq.length := by
              obtain ⟨hv1, hv2, hv3⟩ := inv.valid r (List.mem_cons_of_mem _ hr)
              obtain ⟨hjr1, hjr2⟩ := hjr
              omega
            rw [hcur, hcur,
              if_neg (fun hc => (symAt_inj hsnd hin he'n hi2) hc),
              if_neg (fun hc => (symAt_inj hsnd hin hs'n hi1) hc),
              if_neg (fun hc => (symAt_inj hsnd hjn he'n hj2) hc),
              if_neg (fun hc => (symAt_inj hsnd hjn hs'n hj1) hc)]
            exact inv.eqcur r (List.mem_cons_of_mem _ hr) i j hir hjr
          · intro i j hi hj hne hnc
            by_cases hib : (i = s' ∨ i = e') ∧ (j = s' ∨ j = e')
            · have hceq : curC enc (symAt freq s') = curC enc (symAt freq e') := by
                apply inv.eqcur (s, e) (List.mem_cons_self _ _)
                · rw [inRange]; constructor <;> omega
                · rw [inRange]; constructor <;> omega
              rcases hib.1 with rfl | rfl <;> rcases hib.2 with rfl | rfl
              · omega
              · rw [hcur, hcur, if_neg (fun hc => hsne hc), if_pos rfl,
                  if_pos rfl, hceq]
                exact codeSep_branch (by simp) _ _
              · rw [hcur, hcur, if_pos rfl, if_neg (fun hc => hsne hc),
                  if_pos rfl, hceq]
                exact codeSep_branch (by simp) _ _
              · omega
            · obtain ⟨ui, hui⟩ := hext (symAt freq i)
              obtain ⟨uj, huj⟩ := hext (symAt freq j)
              rw [hui, huj]
              apply codeSep_extend
              apply inv.sep i j hi hj hne
              intro r hr
              rcases List.mem_cons.mp hr with rfl | hr2
              · rintro ⟨⟨hi1, hi2⟩, ⟨hj1, hj2⟩⟩
                apply hib
                simp only at hi1 hi2 hj1 hj2
                constructor
                · have : i = s' ∨ i = e' := by omega
                  exact this
                · have : j = s' ∨ j = e' := by omega
                  exact this
              · exact hnc r hr2
          · intro k hk
            rw [henc'] at hk
            rcases (mem_keys_appendBit _ _ _ _).mp hk with hk2 | rfl
            · rcases (mem_keys_appendBit _ _ _ _).mp hk2 with hk3 | rfl
              · exact inv.keysub k hk3
              · rw [ha1]; exact symAt_mem_map hs'n
            · rw [hb1]; exact symAt_mem_map he'n
          · rw [henc']
            exact keys_appendBit_nodup _ _ (keys_appendBit_nodup _ _ inv.keynd)
        · rw [if_neg hpair] at h
          set cnt := (e + 1 - s).toNat with hcntdef
          have hcnt3 : 3 ≤ cnt := by omega
          have hcntle : s' + cnt ≤ freq.length := by omega
          obtain ⟨tot, encS, k0, htot, hwalk, hk01, hk0c, hlow, hhigh, hout,
            hkeys, hknd⟩ :=
            splitRange_spec freq hsorted hpos hsnd s' cnt enc hcnt3 hcntle
          rw [hsc] at h
          rw [htot] at h
          simp only at h
          rw [hwalk] at h
          simp only at h
          have hpieq : ((s' : Int) + (k0 : Nat) - 1) = ((s' + k0 - 1 : Nat) : Int) := by
            push_cast
            omega
          have hextS : ∀ x, ∃ u, curC encS x = curC enc x ++ u := by
            intro x
            by_cases hx : x ∈ symsIn freq s' cnt
            · obtain ⟨k, hkcnt, rfl⟩ := (mem_symsIn freq s' cnt x).mp hx
              by_cases hkk : k < k0
              · exact ⟨[false], hlow k hkk⟩
              · exact ⟨[true], hhigh k (by omega) hkcnt⟩
            · exact ⟨[], by rw [List.append_nil]; exact hout x hx⟩
          apply ih _ encS enc2 ?_ h
          have hchild0 : ∀ i : Nat, inRange ((s' : Int), (s' : Int) + (k0 : Nat) - 1) i ↔
              s' ≤ i ∧ i < s' + k0 := by
            intro i
            simp only [inRange]
            omega
          have hchild1 : ∀ i : Nat, inRange ((s' : Int) + (k0 : Nat), e) i ↔
              s' + k0 ≤ i ∧ i ≤ e' := by
            intro i
            simp only [inRange]
            omega
          have hparent : ∀ i : Nat, inRange (s, e) i ↔ s' ≤ i ∧ i ≤ e' := by
            intro i
            simp only [inRange]
            omega
          have hcntval : s' + cnt = e' + 1 := by omega
          have houtside : ∀ r ∈ rest, ∀ i : Nat, inRange r i →
              (i < s' ∨ e' < i) := by
            intro r hr i hir
            have hrel := List.rel_of_pairwise_cons inv.disj hr
            obtain ⟨hir1, hir2⟩ := hir
            simp only at hrel
            rcases hrel with hlt | hlt
            · omega
            · omega
          have hsymout : ∀ i : Nat, i < freq.length → (i < s' ∨ e' < i) →
              curC encS (symAt freq i) = curC enc (symAt freq i) := by
            intro i hi hio
            apply hout
            apply symAt_notin_symsIn hsnd hi hcntle
            omega
          have hlow2 : ∀ i : Nat, s' ≤ i → i < s' + k0 →
              curC encS (symAt freq i) = curC enc (symAt freq i) ++ [false] := by
            intro i h1 h2
            have : i = s' + (i - s') := by omega
            rw [this]
            exact hlow (i - s') (by omega)
          have hhigh2 : ∀ i : Nat, s' + k0 ≤ i → i ≤ e' →
              curC encS (symAt freq i) = curC enc (symAt freq i) ++ [true] := by
            intro i h1 h2
            have : i = s' + (i - s') := by omega
            rw [this]
            exact hhigh (i - s') (by omega) (by omega)
          refine ⟨?_, ?_, ?_, ?_, ?_, ?_⟩
          · intro r hr
            rcases List.mem_cons.mp hr with rfl | hr2
            · refine ⟨by positivity, by push_cast; omega, by push_cast; omega⟩
            rcases List.mem_cons.mp hr2 with rfl | hr3
            · refine ⟨by positivity, by push_cast; omega, by omega⟩
            · exact inv.valid r (List.mem_cons_of_mem _ hr3)
          · refine List.Pairwise.cons ?_ (List.Pairwise.cons ?_ inv.disj.of_cons)
            · intro r hr
              rcases List.mem_cons.mp hr with rfl | hr2
              · left; push_cast; omega
              · have hrel := List.rel_of_pairwise_cons inv.disj hr2
                rcases hrel with hlt | hlt
                · left; push_cast; omega
                · right; push_cast; omega
            · intro r hr
              have hrel := List.rel_of_pairwise_cons inv.disj hr
              rcases hrel with hlt | hlt
              · left; push_cast; omega
              · right; push_cast; omega
          · intro r hr i j hir hjr
            rcases List.mem_cons.mp hr with rfl | hr2
            · rw [hchild0] at hir hjr
              rw [hlow2 i hir.1 hir.2, hlow2 j hjr.1 hjr.2]
              congr 1
              apply inv.eqcur (s, e) (List.mem_cons_self _ _) i j
              · rw [hparent]; omega
              · rw [hparent]; omega
            rcases List.mem_cons.mp hr2 with rfl | hr3
            · rw [hchild1] at hir hjr
              rw [hhigh2 i hir.1 hir.2, hhigh2 j hjr.1 hjr.2]
              congr 1
              apply inv.eqcur (s, e) (List.mem_cons_self _ _) i j
              · rw [hparent]; omega
              · rw [hparent]; omega
            · have hin : i < freq.length := by
                obtain ⟨hv1, hv2, hv3⟩ := inv.valid r (List.mem_cons_of_mem _ hr3)
                obtain ⟨hir1, hir2⟩ := hir
                omega
              have hjn : j < freq.length := by
                obtain ⟨hv1, hv2, hv3⟩ := inv.valid r (List.mem_cons_of_mem _ hr3)
                obtain ⟨hjr1, hjr2⟩ := hjr
                omega
              rw [hsymout i hin (houtside r hr3 i hir),
                hsymout j hjn (houtside r hr3 j hjr)]
              exact inv.eqcur r (List.mem_cons_of_mem _ hr3) i j hir hjr
          · intro i j hi hj hne hnc
            by_cases hib : (s' ≤ i ∧ i ≤ e') ∧ (s' ≤ j ∧ j ≤ e')
            · have hceq : curC enc (symAt freq i) = curC enc (symAt freq j) := by
                apply inv.eqcur (s, e) (List.mem_cons_self _ _) i j
                · rw [hparent]; omega
                · rw [hparent]; omega
              have hnc0 := hnc _ (List.mem_cons_self _ _)
              have hnc1 := hnc _ (List.mem_cons_of_mem _ (List.mem_cons_self _ _))
              rw [not_and_or, hchild0, hchild0] at hnc0
              rw [not_and_or, hchild1, hchild1] at hnc1
              have hcase : (i < s' + k0 ∧ s' + k0 ≤ j) ∨
                  (j < s' + k0 ∧ s' + k0 ≤ i) := by omega
              rcases hcase with ⟨hi0, hj1⟩ | ⟨hj0, hi1⟩
              · rw [hlow2 i hib.1.1 hi0, hhigh2 j hj1 hib.2.2, hceq]
                exact codeSep_branch (by simp) _ _
              · rw [hhigh2 i hi1 hib.1.2, hlow2 j hib.2.1 hj0, hceq]
                exact codeSep_branch (by simp) _ _
            · obtain ⟨ui, hui⟩ := hextS (symAt freq i)
              obtain ⟨uj, huj⟩ := hextS (symAt freq j)
              rw [hui, huj]
              apply codeSep_extend
              apply inv.sep i j hi hj hne
              intro r hr
              rcases List.mem_cons.mp hr with rfl | hr2
              · rw [hparent, hparent]
                intro hc
                exact hib hc
              · exact hnc r (List.mem_cons_of_mem _ (List.mem_cons_of_mem _ hr2))
          · intro k hk
            rcases (hkeys k).mp hk with hk2 | hk3
            · exact inv.keysub k hk2
            · obtain ⟨k2, hk2c, rfl⟩ := (mem_symsIn freq s' cnt k).mp hk3
              exact symAt_mem_map (by omega)
          · exact hknd inv.keynd

theorem mem_map_fst_iff (freq : List (Nat × Frac)) (c : Nat) :
    c ∈ freq.map (fun p => p.1) ↔
      ∃ i, i < freq.length ∧ symAt freq i = c := by
  rw [List.mem_map]
  constructor
  · rintro ⟨p, hp, rfl⟩
    obtain ⟨⟨i, hi⟩, hg⟩ := List.mem_iff_get.mp hp
    refine ⟨i, hi, ?_⟩
    rw [symAt, List.getD_eq_getElem freq _ hi]
    rw [← hg]
    simp
  · rintro ⟨i, hi, rfl⟩
    exact ⟨freq.getD i (0, Frac.zero), getD_mem hi, rfl⟩

theorem encode_spec (freq : List (Nat × Frac)) (hsorted : sortedDesc freq)
    (hpos : posFreq freq) (hsnd : symsNodup freq) {enc2 : Encoder}
    (h : encode freq = some enc2) :
    (∀ c1 v1 c2 v2, (c1, v1) ∈ enc2 → (c2, v2) ∈ enc2 → c1 ≠ c2 →
      codeSep v1 v2) ∧
    (∀ k ∈ keys enc2, k ∈ freq.map (fun p => p.1)) ∧
    (keys enc2).Nodup := by
  rcases freq with _ | ⟨p, t⟩
  · exact absurd h (by rw [encode, encodeFuel_nil_eq_none]; simp)
  · set freq := p :: t with hfreq
    have hlen : 1 ≤ freq.length := by rw [hfreq]; simp
    have hinv : EncInv freq [((0 : Int), (freq.length : Int) - 1)] [] := by
      refine ⟨?_, ?_, ?_, ?_, ?_, ?_⟩
      · intro r hr
        rcases List.mem_singleton.mp hr with rfl
        refine ⟨by omega, by push_cast; omega, by push_cast; omega⟩
      · simp
      · intro r hr i j _ _
        rfl
      · intro i j hi hj hne hnc
        exfalso
        apply hnc _ (List.mem_singleton_self _)
        constructor
        · simp only [inRange]
          omega
        · simp only [inRange]
          omega
      · intro k hk
        exact absurd hk (by simp [keys])
      · simp [keys]
    obtain ⟨hsep, hsub, hnd⟩ :=
      encodeLoop_prefixfree freq hsorted hpos hsnd _ _ _ _ hinv h
    refine ⟨?_, hsub, hnd⟩
    intro c1 v1 c2 v2 h1 h2 hne
    have hc1 : c1 ∈ keys enc2 := by
      rw [keys]
      exact List.mem_map.mpr ⟨(c1, v1), h1, rfl⟩
    have hc2 : c2 ∈ keys enc2 := by
      rw [keys]
      exact List.mem_map.mpr ⟨(c2, v2), h2, rfl⟩
    obtain ⟨i, hi, hsi⟩ := (mem_map_fst_iff freq c1).mp (hsub _ hc1)
    obtain ⟨j, hj, hsj⟩ := (mem_map_fst_iff freq c2).mp (hsub _ hc2)
    have hij : i ≠ j := by
      intro he
      subst he
      exact hne (hsi.symm.trans hsj)
    have := hsep i j hi hj hij
    rw [hsi, hsj] at this
    rw [curC, lookupEnc_of_mem hnd h1] at this
    rw [curC, lookupEnc_of_mem hnd h2] at this
    simpa using this

/-! ### Termination of the Code Builder on sorted positive input -/

/-- Termination measure: every pop either ends a range or replaces it by two
strictly smaller ones whose measures sum to one less. -/
def stackMeasure (stack : List (Int × Int)) : Nat :=
  (stack.map (fun r => 2 * (r.2 + 1 - r.1).toNat - 1)).sum

set_option maxHeartbeats 1000000 in
theorem encodeLoop_total (freq : List (Nat × Frac)) (hsorted : sortedDesc freq)
    (hpos : posFreq freq) (hsnd : symsNodup freq) :
    ∀ (fuel : Nat) (stack : List (Int × Int)) (enc : Encoder),
      (∀ r ∈ stack, 0 ≤ r.1 ∧ r.1 ≤ r.2 ∧ r.2 < (freq.length : Int)) →
      stackMeasure stack < fuel →
      ∃ enc2, encodeLoop freq fuel stack enc = some enc2 := by
  intro fuel
  induction fuel with
  | zero => intro stack enc _ hm; omega
  | succ fuel ih =>
    intro stack enc hvalid hm
    cases stack with
    | nil => exact ⟨enc, rfl⟩
    | cons hd rest =>
      rcases hd with ⟨s, e⟩
      obtain ⟨h0s, hse, hen⟩ := hvalid (s, e) (List.mem_cons_self _ _)
      simp only at h0s hse hen
      rw [encodeLoop]
      have hmrest : stackMeasure ((s, e) :: rest) =
          2 * (e + 1 - s).toNat - 1 + stackMeasure rest := by
        simp [stackMeasure]
      by_cases heq : s = e
      · rw [if_pos heq]
        apply ih rest enc (fun r hr => hvalid r (List.mem_cons_of_mem _ hr))
        have := hmrest
        omega
      · rw [if_neg heq]
        set s' := s.toNat with hs'def
        set e' := e.toNat with he'def
        have hsc : s = (s' : Int) := (Int.toNat_of_nonneg h0s).symm
        have hec : e = (e' : Int) := (Int.toNat_of_nonneg (by omega)).symm
        have hs'n : s' < freq.length := by omega
        have he'n : e' < freq.length := by omega
        by_cases hpair : e - s = 1
        · rw [if_pos hpair]
          rw [hsc, hec, pyGet_lt hs'n, pyGet_lt he'n]
          apply ih rest _ (fun r hr => hvalid r (List.mem_cons_of_mem _ hr))
          have := hmrest
          omega
        · rw [if_neg hpair]
          set cnt := (e + 1 - s).toNat with hcntdef
          have hcnt3 : 3 ≤ cnt := by omega
          have hcntle : s' + cnt ≤ freq.length := by omega
          obtain ⟨tot, encS, k0, htot, hwalk, hk01, hk0c, -, -, -, -, -⟩ :=
            splitRange_spec freq hsorted hpos hsnd s' cnt enc hcnt3 hcntle
          rw [hsc, htot]
          simp only
          rw [hwalk]
          simp only
          apply ih _ encS
          · intro r hr
            rcases List.mem_cons.mp hr with rfl | hr2
            · refine ⟨by positivity, by push_cast; omega, by push_cast; omega⟩
            rcases List.mem_cons.mp hr2 with rfl | hr3
            · refine ⟨by positivity, by push_cast; omega, by omega⟩
            · exact hvalid r (List.mem_cons_of_mem _ hr3)
          · have h1 : stackMeasure (((s' : Int), (s' : Int) + (k0 : Nat) - 1) ::
                ((s' : Int) + (k0 : Nat), e) :: rest) =
                (2 * k0 - 1) + (2 * (cnt - k0) - 1) + stackMeasure rest := by
              simp only [stackMeasure, List.map_cons, List.sum_cons]
              have e1 : ((s' : Int) + (k0 : Nat) - 1 + 1 - (s' : Int)).toNat = k0 := by
                omega
              have e2 : (e + 1 - ((s' : Int) + (k0 : Nat))).toNat = cnt - k0 := by
                omega
              rw [e1, e2]
              omega
            have h2 := hmrest
            omega

theorem encode_total (freq : List (Nat × Frac)) (hsorted : sortedDesc freq)
    (hpos : posFreq freq) (hsnd : symsNodup freq) (hne : freq ≠ []) :
    ∃ enc2, encode freq = some enc2 := by
  rw [encode, encodeFuel]
  apply encodeLoop_total freq hsorted hpos hsnd
  · intro r hr
    rcases List.mem_singleton.mp hr with rfl
    have hlen : 1 ≤ freq.length := by
      cases freq with
      | nil => exact absurd rfl hne
      | cons => simp
    refine ⟨by omega, by push_cast; omega, by push_cast; omega⟩
  · rw [stackMeasure]
    simp only [List.map_cons, List.map_nil, List.sum_cons, List.sum_nil]
    omega

/-! ### Properties of the bit unpacker -/

theorem decodeBits_cons (d : Decoder) (vl : List Nat) (b : Bool)
    (l : List Bool) (buf : List Bool) (size : Int) (out : List Nat) :
    decodeBits d vl (b :: l) (buf, size, out) =
      if (buf ++ [b]).length ∈ vl then
        match dlookup d (buf ++ [b]) with
        | some sym =>
          if size - 1 = 0 then ([], size - 1, out ++ [sym])
          else decodeBits d vl l ([], size - 1, out ++ [sym])
        | none => decodeBits d vl l (buf ++ [b], size, out)
      else decodeBits d vl l (buf ++ [b], size, out) := rfl

theorem decodeBits_append_of_ne_zero (d : Decoder) (vl : List Nat) :
    ∀ (bits1 bits2 : List Bool) (st : List Bool × Int × List Nat),
      (decodeBits d vl bits1 st).2.1 ≠ 0 →
      decodeBits d vl (bits1 ++ bits2) st =
        decodeBits d vl bits2 (decodeBits d vl bits1 st) := by
  intro bits1
  induction bits1 with
  | nil => intro bits2 st _; rfl
  | cons b rest ih =>
    intro bits2 st hne
    rcases st with ⟨buf, size, out⟩
    by_cases hv : (buf ++ [b]).length ∈ vl
    · cases hl : dlookup d (buf ++ [b]) with
      | none =>
        have hstep : ∀ l, decodeBits d vl (b :: l) (buf, size, out) =
            decodeBits d vl l (buf ++ [b], size, out) := by
          intro l
          rw [decodeBits_cons, if_pos hv, hl]
        rw [hstep] at hne
        rw [List.cons_append, hstep rest, hstep (rest ++ bits2)]
        exact ih bits2 _ hne
      | some sym =>
        by_cases hz : size - 1 = 0
        · have hstep : ∀ l, decodeBits d vl (b :: l) (buf, size, out) =
              ([], size - 1, out ++ [sym]) := by
            intro l
            rw [decodeBits_cons, if_pos hv, hl]
            simp only [if_pos hz]
          rw [hstep] at hne
          exact absurd hz hne
        · have hstep : ∀ l, decodeBits d vl (b :: l) (buf, size, out) =
              decodeBits d vl l ([], size - 1, out ++ [sym]) := by
            intro l
            rw [decodeBits_cons, if_pos hv, hl]
            simp only [if_neg hz]
          rw [hstep] at hne
          rw [List.cons_append, hstep rest, hstep (rest ++ bits2)]
          exact ih bits2 _ hne
    · have hstep : ∀ l, decodeBits d vl (b :: l) (buf, size, out) =
          decodeBits d vl l (buf ++ [b], size, out) := by
        intro l
        rw [decodeBits_cons, if_neg hv]
      rw [hstep] at hne
      rw [List.cons_append, hstep rest, hstep (rest ++ bits2)]
      exact ih bits2 _ hne

theorem decodeBits_append_of_zero (d : Decoder) (vl : List Nat) :
    ∀ (bits1 bits2 : List Bool) (st : List Bool × Int × List Nat),
      (decodeBits d vl bits1 st).2.1 = 0 → st.2.1 ≠ 0 →
      decodeBits d vl (bits1 ++ bits2) st = decodeBits d vl bits1 st := by
  intro bits1
  induction bits1 with
  | nil =>
    intro bits2 st h0 hne
    exact absurd h0 hne
  | cons b rest ih =>
    intro bits2 st h0 hne
    rcases st with ⟨buf, size, out⟩
    by_cases hv : (buf ++ [b]).length ∈ vl
    · cases hl : dlookup d (buf ++ [b]) with
      | none =>
        have hstep : ∀ l, decodeBits d vl (b :: l) (buf, size, out) =
            decodeBits d vl l (buf ++ [b], size, out) := by
          intro l
          rw [decodeBits_cons, if_pos hv, hl]
        rw [hstep] at h0
        rw [List.cons_append, hstep (rest ++ bits2), hstep rest]
        exact ih bits2 _ h0 hne
      | some sym =>
        by_cases hz : size - 1 = 0
        · have hstep : ∀ l, decodeBits d vl (b :: l) (buf, size, out) =
              ([], size - 1, out ++ [sym]) := by
            intro l
            rw [decodeBits_cons, if_pos hv, hl]
            simp only [if_pos hz]
          rw [List.cons_append, hstep (rest ++ bits2), hstep rest]
        · have hstep : ∀ l, decodeBits d vl (b :: l) (buf, size, out) =
              decodeBits d vl l ([], size - 1, out ++ [sym]) := by
            intro l
            rw [decodeBits_cons, if_pos hv, hl]
            simp only [if_neg hz]
          rw [hstep] at h0
          rw [List.cons_append, hstep (rest ++ bits2), hstep rest]
          exact ih bits2 _ h0 hz
    · have hstep : ∀ l, decodeBits d vl (b :: l) (buf, size, out) =
          decodeBits d vl l (buf ++ [b], size, out) := by
        intro l
        rw [decodeBits_cons, if_neg hv]
      rw [hstep] at h0
      rw [List.cons_append, hstep (rest ++ bits2), hstep rest]
      exact ih bits2 _ h0 hne

theorem decodeBits_misses (d : Decoder) (vl : List Nat) :
    ∀ (pre c1 : List Bool) (size : Int) (out : List Nat),
      (∀ j, 1 ≤ j → j ≤ pre.length → dlookup d (c1 ++ pre.take j) = none) →
      decodeBits d vl pre (c1, size, out) = (c1 ++ pre, size, out) := by
  intro pre
  induction pre with
  | nil => intro c1 size out _; simp [decodeBits]
  | cons b rest ih =>
    intro c1 size out hmiss
    have h1 : dlookup d (c1 ++ [b]) = none := by
      have := hmiss 1 (by omega) (by simp)
      simpa using this
    have hrest : ∀ j, 1 ≤ j → j ≤ rest.length →
        dlookup d ((c1 ++ [b]) ++ rest.take j) = none := by
      intro j hj1 hj2
      have := hmiss (j + 1) (by omega) (by simp; omega)
      rw [List.take_succ_cons] at this
      simpa [List.append_assoc] using this
    have hstep : decodeBits d vl (b :: rest) (c1, size, out) =
        decodeBits d vl rest (c1 ++ [b], size, out) := by
      rw [decodeBits_cons]
      by_cases hv : (c1 ++ [b]).length ∈ vl
      · rw [if_pos hv, h1]
      · rw [if_neg hv]
    rw [hstep, ih (c1 ++ [b]) size out hrest]
    simp

theorem decodeBits_one_code (d : Decoder) (vl : List Nat) :
    ∀ (c2 c1 : List Bool) (rest : List Bool) (size : Int) (out : List Nat)
      (sym : Nat),
      dlookup d (c1 ++ c2) = some sym →
      (c1 ++ c2).length ∈ vl →
      (∀ k, k < c2.length → dlookup d (c1 ++ c2.take k) = none) →
      c2 ≠ [] →
      decodeBits d vl (c2 ++ rest) (c1, size, out) =
        if size - 1 = 0 then ([], size - 1, out ++ [sym])
        else decodeBits d vl rest ([], size - 1, out ++ [sym]) := by
  intro c2
  induction c2 with
  | nil => intro c1 rest size out sym _ _ _ hne; exact absurd rfl hne
  | cons b c2' ih =>
    intro c1 rest size out sym hlk hvl hpre _
    cases c2' with
    | nil =>
      have hfull : c1 ++ [b] = c1 ++ [b] := rfl
      rw [List.cons_append, List.nil_append, decodeBits_cons]
      rw [show c1 ++ [b] = c1 ++ [b] from rfl]
      have hl2 : dlookup d (c1 ++ [b]) = some sym := hlk
      have hv2 : (c1 ++ [b]).length ∈ vl := hvl
      rw [if_pos hv2, hl2]
    | cons b2 c2'' =>
      have h1 : dlookup d (c1 ++ [b]) = none := by
        have := hpre 1 (by simp)
        simpa using this
      have happ : c1 ++ b :: b2 :: c2'' = (c1 ++ [b]) ++ (b2 :: c2'') := by
        simp
      have hstep : decodeBits d vl (b :: ((b2 :: c2'') ++ rest)) (c1, size, out) =
          decodeBits d vl ((b2 :: c2'') ++ rest) (c1 ++ [b], size, out) := by
        rw [decodeBits_cons]
        by_cases hv : (c1 ++ [b]).length ∈ vl
        · rw [if_pos hv, h1]
        · rw [if_neg hv]
      rw [List.cons_append, hstep]
      apply ih (c1 ++ [b]) rest size out sym
      · rw [← happ]; exact hlk
      · rw [← happ]; exact hvl
      · intro k hk
        have hklt : k + 1 < (b :: b2 :: c2'').length := by
          simp only [List.length_cons] at hk ⊢
          omega
        have := hpre (k + 1) hklt
        rw [List.take_succ_cons] at this
        rw [List.append_assoc]
        simpa using this
      · simp

/-- Hypotheses on a symbol's codeword needed by the decoder: it is found in
the decode table, its length is registered, and no proper prefix of it is in
the table. -/
def goodCode (d : Decoder) (vl : List Nat) (code : Nat → List Bool)
    (x : Nat) : Prop :=
  dlookup d (code x) = some x ∧ (code x).length ∈ vl ∧ code x ≠ [] ∧
    ∀ k, k < (code x).length → dlookup d ((code x).take k) = none

theorem decodeBits_codes (d : Decoder) (vl : List Nat)
    (code : Nat → List Bool) :
    ∀ (xs : List Nat) (extra : List Bool) (out : List Nat),
      xs ≠ [] →
      (∀ x ∈ xs, goodCode d vl code x) →
      decodeBits d vl ((xs.map code).join ++ extra)
        ([], (xs.length : Int), out) = ([], 0, out ++ xs) := by
  intro xs
  induction xs with
  | nil => intro extra out hne _; exact absurd rfl hne
  | cons x xs' ih =>
    intro extra out _ hgood
    obtain ⟨hlk, hvl, hcne, hpre⟩ := hgood x (List.mem_cons_self _ _)
    have hjoin : ((x :: xs').map code).join ++ extra =
        code x ++ ((xs'.map code).join ++ extra) := by
      simp [List.append_assoc]
    rw [hjoin]
    have hone := decodeBits_one_code d vl (code x) [] ((xs'.map code).join ++ extra)
      ((x :: xs').length : Int) out x (by simpa using hlk) (by simpa using hvl)
      (by intro k hk; simpa using hpre k hk) hcne
    rw [hone]
    cases xs' with
    | nil =>
      rw [if_pos (by simp)]
      simp
    | cons y ys =>
      rw [if_neg (by simp; omega)]
      have hlen : ((x :: y :: ys).length : Int) - 1 = ((y :: ys).length : Int) := by
        simp
      rw [hlen]
      rw [ih extra (out ++ [x]) (by simp)
        (fun z hz => hgood z (List.mem_cons_of_mem _ hz))]
      simp

theorem decodeBits_partial (d : Decoder) (vl : List Nat)
    (code : Nat → List Bool) :
    ∀ (xs : List Nat) (pre : List Bool) (out : List Nat),
      (∀ x ∈ xs, goodCode d vl code x) →
      (∃ t, t ≠ [] ∧ pre ++ t = (xs.map code).join) →
      0 < (decodeBits d vl pre ([], (xs.length : Int), out)).2.1 := by
  intro xs
  induction xs with
  | nil =>
    intro pre out _ hpt
    obtain ⟨t, ht, hpt⟩ := hpt
    exfalso
    apply ht
    have hlen := congrArg List.length hpt
    simp only [List.length_append, List.map_nil, List.join_nil,
      List.length_nil] at hlen
    apply List.eq_nil_of_length_eq_zero
    omega
  | cons x xs' ih =>
    intro pre out hgood hpt
    obtain ⟨t, ht, hpt⟩ := hpt
    obtain ⟨hlk, hvl, hcne, hpre⟩ := hgood x (List.mem_cons_self _ _)
    rw [show ((x :: xs').map code).join = code x ++ (xs'.map code).join
      from by simp] at hpt
    by_cases hlen : pre.length < (code x).length
    · have hpree : pre = (code x).take pre.length := by
        have h1 : (pre ++ t).take pre.length = pre := List.take_left pre t
        rw [hpt] at h1
        rw [← List.take_append_of_le_length (le_of_lt hlen), h1]
      have hmiss : decodeBits d vl pre ([], ((x :: xs').length : Int), out) =
          ([] ++ pre, ((x :: xs').length : Int), out) := by
        apply decodeBits_misses
        intro j hj1 hj2
        have hjtake : pre.take j = (code x).take j := by
          rw [hpree, List.take_take]
          congr 1
          omega
        rw [List.nil_append, hjtake]
        exact hpre j (by omega)
      rw [hmiss]
      simp only [List.length_cons]
      push_cast
      omega
    · have htake : pre.take (code x).length = code x := by
        have h1 : (pre ++ t).take (code x).length = pre.take (code x).length :=
          List.take_append_of_le_length (by omega)
        rw [hpt, List.take_left] at h1
        exact h1.symm
      have hsplit : pre = code x ++ pre.drop (code x).length := by
        conv_lhs => rw [← List.take_append_drop (code x).length pre]
        rw [htake]
      have hrest : pre.drop (code x).length ++ t = (xs'.map code).join := by
        have h2 : (code x ++ pre.drop (code x).length) ++ t =
            code x ++ (xs'.map code).join := by
          rw [← hsplit, hpt]
        rw [List.append_assoc] at h2
        exact List.append_cancel_left h2
      have hxs' : xs' ≠ [] := by
        intro hc
        subst hc
        simp at hrest
        exact ht hrest.2
      have hone := decodeBits_one_code d vl (code x) [] (pre.drop (code x).length)
        ((x :: xs').length : Int) out x (by simpa using hlk) (by simpa using hvl)
        (by intro k hk; simpa using hpre k hk) hcne
      rw [hsplit, hone, if_neg ?_]
      · have hlen2 : ((x :: xs').length : Int) - 1 = (xs'.length : Int) := by
          simp
        rw [hlen2]
        exact ih _ (out ++ [x])
          (fun z hz => hgood z (List.mem_cons_of_mem _ hz)) ⟨t, ht, hrest⟩
      · have h1 : 1 ≤ xs'.length := by
          cases xs' with
          | nil => exact absurd rfl hxs'
          | cons => simp
        simp only [List.length_cons]
        push_cast
        omega

theorem bitsOfBytes_cons (b : Nat) (bs : List Nat) :
    bitsOfBytes (b :: bs) = bitsOfByte b ++ bitsOfBytes bs := by
  simp [bitsOfBytes]

theorem udLoop_spec (d : Decoder) (vl : List Nat) :
    ∀ (bs : List Nat) (st : List Bool × Int × List Nat),
      st.2.1 ≠ 0 →
      (decodeBits d vl (bitsOfBytes bs.dropLast) st).2.1 ≠ 0 →
      udLoop d vl bs st = (decodeBits d vl (bitsOfBytes bs) st).2.2 := by
  intro bs
  induction bs with
  | nil => intro st _ _; rfl
  | cons b bs' ih =>
    intro st h1 h2
    cases bs' with
    | nil =>
      show udLoop d vl [] (decodeBits d vl (bitsOfByte b) st) = _
      rw [udLoop]
      congr 1
      rw [show bitsOfBytes [b] = bitsOfByte b from by simp [bitsOfBytes]]
    | cons c bs'' =>
      have hdl : (b :: c :: bs'').dropLast = b :: (c :: bs'').dropLast := rfl
      rw [hdl, bitsOfBytes_cons] at h2
      set st1 := decodeBits d vl (bitsOfByte b) st with hst1
      by_cases hz : st1.2.1 = 0
      · exfalso
        rw [decodeBits_append_of_zero d vl _ _ st hz h1] at h2
        exact h2 hz
      · rw [decodeBits_append_of_ne_zero d vl _ _ st hz] at h2
        have hud : udLoop d vl (b :: c :: bs'') st =
            udLoop d vl (c :: bs'') st1 := rfl
        rw [hud, ih st1 hz h2,
          show bitsOfBytes (b :: c :: bs'') =
            bitsOfByte b ++ bitsOfBytes (c :: bs'')
            from bitsOfBytes_cons b (c :: bs''),
          decodeBits_append_of_ne_zero d vl _ _ st hz]

/-! ### The decoder inverts the packer -/

theorem swapEnc_keys (enc : Encoder) :
    (swapEnc enc).map (fun p => p.1) = enc.map (fun p => p.2) := by
  simp [swapEnc]

theorem values_nodup {enc : Encoder} (hknd : (keys enc).Nodup)
    (hsep : ∀ c1 v1 c2 v2, (c1, v1) ∈ enc → (c2, v2) ∈ enc → c1 ≠ c2 →
      codeSep v1 v2) :
    (enc.map (fun p => p.2)).Nodup := by
  rw [List.Nodup, List.pairwise_map]
  have hk : enc.Pairwise (fun p q => p.1 ≠ q.1) := by
    have := hknd
    rw [keys, List.Nodup, List.pairwise_map] at this
    exact this
  apply List.Pairwise.imp_of_mem ?_ hk
  intro p q hp hq hne
  exact codeSep_ne (hsep p.1 p.2 q.1 q.2 hp hq hne)

theorem goodCode_of {enc : Encoder} (hknd : (keys enc).Nodup)
    (hsep : ∀ c1 v1 c2 v2, (c1, v1) ∈ enc → (c2, v2) ∈ enc → c1 ≠ c2 →
      codeSep v1 v2)
    (hne0 : ∀ p ∈ enc, p.2 ≠ []) {x : Nat} {cx : List Bool}
    (hlx : lookupEnc enc x = some cx) :
    goodCode (swapEnc enc) (valLens enc) (codeD enc) x := by
  have hmem : (x, cx) ∈ enc := lookupEnc_mem hlx
  have hcd : codeD enc x = cx := by rw [codeD, hlx]; rfl
  have hvnd : ((swapEnc enc).map (fun p => p.1)).Nodup := by
    rw [swapEnc_keys]
    exact values_nodup hknd hsep
  refine ⟨?_, ?_, ?_, ?_⟩
  · rw [hcd]
    exact dlookup_of_mem hvnd (List.mem_map.mpr ⟨(x, cx), hmem, rfl⟩)
  · rw [hcd, mem_valLens]
    exact List.mem_map.mpr ⟨(x, cx), hmem, rfl⟩
  · rw [hcd]
    exact hne0 (x, cx) hmem
  · intro k hk
    rw [hcd] at hk ⊢
    apply dlookup_eq_none
    rw [swapEnc_keys]
    intro hmem2
    obtain ⟨⟨c2, v2⟩, hmem2, hv2⟩ := List.mem_map.mp hmem2
    simp only at hv2
    by_cases hcc : c2 = x
    · subst hcc
      have := lookupEnc_of_mem hknd hmem2
      rw [hlx] at this
      obtain rfl : v2 = cx := by simpa using this.symm
      have := congrArg List.length hv2
      simp at this
      omega
    · have hcs := hsep x cx c2 v2 hmem hmem2 (fun he => hcc he.symm)
      apply codeSep_not_isPref (codeSep_symm hcs)
      refine ⟨cx.drop k, ?_⟩
      rw [hv2, List.take_append_drop]

theorem bitsOfByte_len_ge (b : Nat) : 8 ≤ (bitsOfByte b).length := by
  rw [bitsOfByte, rjust, BYTE_LENGTH]
  simp only [List.length_append, List.length_replicate]
  omega

set_option maxHeartbeats 1000000 in
theorem decode_pack_data {enc : Encoder} {input pl : List Nat}
    (hknd : (keys enc).Nodup)
    (hsep : ∀ c1 v1 c2 v2, (c1, v1) ∈ enc → (c2, v2) ∈ enc → c1 ≠ c2 →
      codeSep v1 v2)
    (hne0 : ∀ p ∈ enc, p.2 ≠ [])
    (hpd : pack_data input enc = some pl) :
    unpack_data pl (input.length : Int) (swapEnc enc) (valLens enc) = input := by
  obtain ⟨b2, o2, hloop, hcase⟩ := pack_data_cases hpd
  obtain ⟨hlookup, -, -, hnil, -⟩ := pdLoop_spec enc input [] [] b2 o2 hloop
  have hgood : ∀ x ∈ input, goodCode (swapEnc enc) (valLens enc) (codeD enc) x := by
    intro x hx
    obtain ⟨cx, hcx⟩ := Option.isSome_iff_exists.mp (hlookup x hx)
    exact goodCode_of hknd hsep hne0 hcx
  cases input with
  | nil =>
    have hpl : pl = [] := by
      rw [pack_data] at hpd
      simp only [pdLoop] at hpd
      simpa [Option.pure_def, Option.bind_eq_bind, Option.some_bind] using
        hpd.symm
    subst hpl
    rfl
  | cons x0 input' =>
    set input := x0 :: input' with hinput
    obtain ⟨pad, hpad8, hbits, hlen⟩ := pack_data_bits hpd
    have hCjoin : concatCodes enc input = (input.map (codeD enc)).join := rfl
    have hClen : 1 ≤ (concatCodes enc input).length := by
      rw [hCjoin, hinput]
      simp only [List.map_cons, List.join_cons, List.length_append]
      have := (hgood x0 (by rw [hinput]; exact List.mem_cons_self _ _)).2.2.1
      cases hcd : codeD enc x0 with
      | nil => exact absurd hcd this
      | cons => simp [hcd]; omega
    have hplne : pl ≠ [] := by
      intro hc
      subst hc
      simp at hlen
      omega
    have hT1 : 1 ≤ input.length := by rw [hinput]; simp
    rw [unpack_data]
    rw [udLoop_spec (swapEnc enc) (valLens enc) pl ([], (input.length : Int), [])
      (by simp) ?hdrop]
    case _ =>
      rw [hbits, hCjoin]
      rw [decodeBits_codes (swapEnc enc) (valLens enc) (codeD enc) input
        (List.replicate pad false) [] (by rw [hinput]; simp) hgood]
      simp
    case hdrop =>
      have hsplit : pl = pl.dropLast ++ [pl.getLast hplne] :=
        (List.dropLast_append_getLast hplne).symm
      have hbytes : bitsOfBytes pl.dropLast ++ bitsOfByte (pl.getLast hplne) =
          concatCodes enc input ++ List.replicate pad false := by
        have happ : bitsOfBytes (pl.dropLast ++ [pl.getLast hplne]) =
            bitsOfBytes pl.dropLast ++ bitsOfByte (pl.getLast hplne) := by
          simp [bitsOfBytes]
        rw [← happ, ← hsplit, hbits]
      have hlast8 := bitsOfByte_len_ge (pl.getLast hplne)
      have hlenb := congrArg List.length hbytes
      simp only [List.length_append, List.length_replicate] at hlenb
      have hprelt : (bitsOfBytes pl.dropLast).length <
          (concatCodes enc input).length := by omega
      have hpretake : bitsOfBytes pl.dropLast =
          (concatCodes enc input).take (bitsOfBytes pl.dropLast).length := by
        have h1 := List.take_left (bitsOfBytes pl.dropLast)
          (bitsOfByte (pl.getLast hplne))
        rw [hbytes, List.take_append_of_le_length (le_of_lt hprelt)] at h1
        exact h1.symm
      have hpos := decodeBits_partial (swapEnc enc) (valLens enc) (codeD enc)
        input (bitsOfBytes pl.dropLast) [] hgood
        ⟨(concatCodes enc input).drop (bitsOfBytes pl.dropLast).length, ?_, ?_⟩
      · exact ne_of_gt hpos
      · intro hc
        have := congrArg List.length hc
        simp only [List.length_drop, List.length_nil] at this
        omega
      · have hsum := List.take_append_drop (bitsOfBytes pl.dropLast).length
          (concatCodes enc input)
        rw [← hpretake] at hsum
        rw [← hCjoin]
        exact hsum

theorem mem_keys_of_isSome {enc : Encoder} {c : Nat}
    (h : (lookupEnc enc c).isSome) : c ∈ keys enc := by
  obtain ⟨v, hv⟩ := Option.isSome_iff_exists.mp h
  exact List.mem_map.mpr ⟨(c, v), lookupEnc_mem hv, rfl⟩

/-- Whenever `pack` succeeds, `unpack` recovers the input exactly. -/
theorem pack_unpack {input out : List Nat} (hpk : pack input = some out) :
    unpack out = input := by
  rw [pack] at hpk
  rcases hE : encode (frequency input).2 with _ | enc
  · rw [hE] at hpk; exact absurd hpk (by simp)
  rw [hE] at hpk
  dsimp only at hpk
  rcases hM : pack_metadata enc (frequency input).1 (frequency input).2.length
      with herr | hdr
  · rw [hM] at hpk; exact absurd hpk (by simp)
  rw [hM] at hpk
  dsimp only at hpk
  rcases hP : pack_data input enc with _ | pl
  · rw [hP] at hpk; exact absurd hpk (by simp)
  rw [hP] at hpk
  dsimp only at hpk
  obtain rfl : hdr ++ pl = out := by simpa using hpk
  obtain ⟨hsep, hkeys_sub, hknd⟩ := encode_spec (frequency input).2
    (frequency_sorted input) (frequency_pos input) (frequency_syms_nodup input)
    hE
  obtain ⟨hfl256, his256, hok, rfl⟩ := (pack_metadata_ok enc _ _ hdr).mp hM
  have hne0 : ∀ p ∈ enc, p.2 ≠ [] := fun p hp => (hok p hp).2.1
  have hvnd : (enc.map (fun p => p.2)).Nodup := values_nodup hknd hsep
  obtain ⟨b2, o2, hloop, -⟩ := pack_data_cases hP
  obtain ⟨hlookup, -, -, -, -⟩ := pdLoop_spec enc input [] [] b2 o2 hloop
  have hsub2 : ((frequency input).2.map (fun p => p.1)) ⊆ keys enc := by
    intro s hs
    obtain ⟨p, hp, rfl⟩ := List.mem_map.mp hs
    have hsin : p.1 ∈ input := ((frequency_mem input p).mp hp).1
    exact mem_keys_of_isSome (hlookup p.1 hsin)
  have hlen_eq : enc.length = (frequency input).2.length := by
    have h1 : (keys enc).length ≤
        ((frequency input).2.map (fun p => p.1)).length :=
      (hknd.subperm hkeys_sub).length_le
    have h2 : ((frequency input).2.map (fun p => p.1)).length ≤
        (keys enc).length :=
      ((frequency_syms_nodup input).subperm hsub2).length_le
    have h3 : (keys enc).length = enc.length := by rw [keys]; simp
    have h4 : ((frequency input).2.map (fun p => p.1)).length =
        (frequency input).2.length := by simp
    omega
  have hT : (frequency input).1 = input.length := rfl
  have hout : (frequency input).2.length :: (frequency input).1 ::
      triplesOf enc ++ pl =
      enc.length :: input.length :: (triplesOf enc ++ pl) := by
    rw [hlen_eq, hT]; simp
  rw [hout, unpack, unpack_metadata_header enc input.length pl hne0 hvnd]
  exact decode_pack_data hknd hsep hne0 hP

/-! ### Decomposition of a successful `pack` run -/

/-- A successful `pack` run decomposes into its three stages, and the header's
first byte — the frequency-table length — equals the encoder-table length,
because `pack_data` succeeding forces every frequency symbol into the encoder
and `encode` only ever touches frequency symbols. -/
theorem pack_parts {input out : List Nat} (hpk : pack input = some out) :
    ∃ enc pl, encode (frequency input).2 = some enc ∧
      pack_metadata enc (frequency input).1 (frequency input).2.length =
        Except.ok (enc.length :: input.length :: triplesOf enc) ∧
      pack_data input enc = some pl ∧
      out = (enc.length :: input.length :: triplesOf enc) ++ pl ∧
      enc.length = (frequency input).2.length := by
  rw [pack] at hpk
  rcases hE : encode (frequency input).2 with _ | enc
  · rw [hE] at hpk; exact absurd hpk (by simp)
  rw [hE] at hpk
  dsimp only at hpk
  rcases hM : pack_metadata enc (frequency input).1 (frequency input).2.length
      with herr | hdr
  · rw [hM] at hpk; exact absurd hpk (by simp)
  rw [hM] at hpk
  dsimp only at hpk
  rcases hP : pack_data input enc with _ | pl
  · rw [hP] at hpk; exact absurd hpk (by simp)
  rw [hP] at hpk
  dsimp only at hpk
  obtain rfl : hdr ++ pl = out := by simpa using hpk
  obtain ⟨hsep, hkeys_sub, hknd⟩ := encode_spec (frequency input).2
    (frequency_sorted input) (frequency_pos input) (frequency_syms_nodup input)
    hE
  obtain ⟨hfl256, his256, hok, rfl⟩ := (pack_metadata_ok enc _ _ hdr).mp hM
  obtain ⟨b2, o2, hloop, -⟩ := pack_data_cases hP
  obtain ⟨hlookup, -, -, -, -⟩ := pdLoop_spec enc input [] [] b2 o2 hloop
  have hsub2 : ((frequency input).2.map (fun p => p.1)) ⊆ keys enc := by
    intro s hs
    obtain ⟨p, hp, rfl⟩ := List.mem_map.mp hs
    have hsin : p.1 ∈ input := ((frequency_mem input p).mp hp).1
    exact mem_keys_of_isSome (hlookup p.1 hsin)
  have hlen_eq : enc.length = (frequency input).2.length := by
    have h1 : (keys enc).length ≤
        ((frequency input).2.map (fun p => p.1)).length :=
      (hknd.subperm hkeys_sub).length_le
    have h2 : ((frequency input).2.map (fun p => p.1)).length ≤
        (keys enc).length :=
      ((frequency_syms_nodup input).subperm hsub2).length_le
    have h3 : (keys enc).length = enc.length := by rw [keys]; simp
    have h4 : ((frequency input).2.map (fun p => p.1)).length =
        (frequency input).2.length := by simp
    omega
  have hT : (frequency input).1 = input.length := rfl
  refine ⟨enc, pl, rfl, ?_, hP, ?_, hlen_eq⟩
  · rw [hM, hlen_eq, hT]
  · rw [hlen_eq, hT]

/-! ### Concrete tables used to instantiate the general theorems -/

/-- The code table `encode` builds for the input `"abcd"` (bytes
97, 98, 99, 100, each once): codeword lengths 3, 3, 2, 1. -/
def encAbcd : Encoder :=
  [(97, [false, false, false]), (98, [false, false, true]),
   (99, [false, true]), (100, [true])]

/-- A two-entry code table with codeword lengths 1 and 2 for the metadata
round-trip instance. -/
def encTwo : Encoder := [(65, [true]), (66, [false, true])]

/-! ### The claims -/

/-- C1 (amended): whenever `pack` accepts an input and produces a compressed
file, `unpack` on that file reproduces the original byte sequence exactly.
The bound "at most 255 distinct and at most 255 total symbols" of the original
claim does not guarantee acceptance: `pack` also fails on in-bounds inputs
(for instance any input with a single distinct symbol). -/
theorem claim_C1_roundtrip {input out : List Nat} (h : pack input = some out) :
    unpack out = input :=
  pack_unpack h

theorem claim_C1_roundtrip_witness :
    pack [97, 98, 99, 100] =
      some [4, 4, 97, 3, 0, 98, 3, 1, 99, 2, 1, 100, 1, 1, 5, 128] ∧
    unpack [4, 4, 97, 3, 0, 98, 3, 1, 99, 2, 1, 100, 1, 1, 5, 128] =
      [97, 98, 99, 100] :=
  ⟨by decide, claim_C1_roundtrip (by decide)⟩

/-- C1, counterexample to the original bound: the input `[0]` has one distinct
symbol and one total symbol — well within 255 and 255 — yet `pack` fails on
it (the code builder leaves the single symbol without a codeword, and the
payload packer then fails to look it up). -/
theorem claim_C1_single_symbol_fails :
    (frequency [0]).2.length ≤ 255 ∧ [0].length ≤ 255 ∧ pack [0] = none := by
  decide

/-- C2: on a frequency list that is sorted by non-increasing probability, has
positive probabilities and distinct symbols (as every list produced by
`frequency` is), any code table `encode` returns is a valid code: for two
distinct symbols, neither codeword is a prefix of the other, and the
codewords differ. -/
theorem claim_C2_valid_code (freq : List (Nat × Frac))
    (hsorted : sortedDesc freq) (hpos : posFreq freq) (hsnd : symsNodup freq)
    {enc2 : Encoder} (h : encode freq = some enc2) :
    ∀ c1 v1 c2 v2, (c1, v1) ∈ enc2 → (c2, v2) ∈ enc2 → c1 ≠ c2 →
      (¬ ∃ t, v1 ++ t = v2) ∧ v1 ≠ v2 := by
  intro c1 v1 c2 v2 h1 h2 hne
  have hsep := (encode_spec freq hsorted hpos hsnd h).1 c1 v1 c2 v2 h1 h2 hne
  exact ⟨codeSep_not_isPref hsep, codeSep_ne hsep⟩

theorem claim_C2_valid_code_witness :
    encode (frequency [97, 98, 99, 100]).2 = some encAbcd ∧
    (¬ ∃ t, [false, true] ++ t = [false, false, false]) ∧
    [false, true] ≠ [false, false, false] := by
  have hE : encode (frequency [97, 98, 99, 100]).2 = some encAbcd := by decide
  exact ⟨hE, claim_C2_valid_code (frequency [97, 98, 99, 100]).2
    (frequency_sorted _) (frequency_pos _) (frequency_syms_nodup _) hE
    99 [false, true] 97 [false, false, false] (by decide) (by decide)
    (by decide)⟩

/-- C3 (amended): on the input `"abcd"` (bytes 97, 98, 99, 100, uniform
frequencies), the non-strict `partition <= half` comparison sends three of the
four symbols to the left half of the first split, so the codeword lengths are
3, 3, 2 and 1 bits — not 2 bits each; the round-trip is still exact. -/
theorem claim_C3_abcd_codes :
    encode (frequency [97, 98, 99, 100]).2 = some encAbcd ∧
    encAbcd.map (fun p => (p.1, p.2.length)) =
      [(97, 3), (98, 3), (99, 2), (100, 1)] ∧
    pack [97, 98, 99, 100] =
      some [4, 4, 97, 3, 0, 98, 3, 1, 99, 2, 1, 100, 1, 1, 5, 128] ∧
    unpack [4, 4, 97, 3, 0, 98, 3, 1, 99, 2, 1, 100, 1, 1, 5, 128] =
      [97, 98, 99, 100] := by
  decide

/-- C3, counterexample to the original claim: not every symbol of `"abcd"`
receives a 2-bit codeword. -/
theorem claim_C3_not_all_two_bits :
    ¬ ∀ p ∈ (encode (frequency [97, 98, 99, 100]).2).getD [],
        p.2.length = 2 := by
  decide

/-- C4: contrary to the claim, `pack` does not terminate normally on the empty
input. `frequency` returns an empty list, the work stack starts as
`[(0, -1)]`, the `end - start == 1` branch never fires and the partition walk
over the empty range pushes `(0, -2)` and `(0, -1)`, after which `(0, -2)`
reproduces itself forever: no amount of fuel makes the loop return, so no
header `T=0, N=0` is ever written. -/
theorem claim_C4_empty_input_diverges :
    (∀ fuel, encodeFuel (frequency []).2 fuel = none) ∧ pack [] = none :=
  ⟨fun fuel => encodeFuel_nil_eq_none fuel, by decide⟩

/-- C5: on every input `pack` accepts, the header is exactly `2 + 3*N` bytes —
one byte `N` (the number of table entries, also the number of distinct
symbols), one byte `T`, and three bytes per table entry — and `N` is the first
header byte. -/
theorem claim_C5_header_length {input out : List Nat}
    (h : pack input = some out) :
    ∃ enc hdr pl, encode (frequency input).2 = some enc ∧
      pack_metadata enc (frequency input).1 (frequency input).2.length =
        Except.ok hdr ∧
      pack_data input enc = some pl ∧ out = hdr ++ pl ∧
      hdr.head? = some enc.length ∧ hdr.length = 2 + 3 * enc.length := by
  obtain ⟨enc, pl, hE, hM, hP, hout, hlen⟩ := pack_parts h
  refine ⟨enc, _, pl, hE, hM, hP, hout, rfl, ?_⟩
  simp only [List.length_cons, triplesOf_length]
  omega

theorem claim_C5_header_length_witness :
    pack [97, 98, 99, 100] =
      some [4, 4, 97, 3, 0, 98, 3, 1, 99, 2, 1, 100, 1, 1, 5, 128] ∧
    ∃ enc hdr pl, encode (frequency [97, 98, 99, 100]).2 = some enc ∧
      pack_metadata enc (frequency [97, 98, 99, 100]).1
          (frequency [97, 98, 99, 100]).2.length = Except.ok hdr ∧
      pack_data [97, 98, 99, 100] enc = some pl ∧
      [4, 4, 97, 3, 0, 98, 3, 1, 99, 2, 1, 100, 1, 1, 5, 128] = hdr ++ pl ∧
      hdr.head? = some enc.length ∧ hdr.length = 2 + 3 * enc.length :=
  ⟨by decide, claim_C5_header_length (by decide)⟩

/-- C6: on every input `pack` accepts, the payload after the header is exactly
`ceil(S/8) = (S+7)/8` bytes, where `S` is the total bit-length of the
codewords of all input symbols. -/
theorem claim_C6_payload_length {input out : List Nat}
    (h : pack input = some out) :
    ∃ enc hdr pl, encode (frequency input).2 = some enc ∧
      pack_data input enc = some pl ∧ out = hdr ++ pl ∧
      pl.length = ((input.map (fun c => (codeD enc c).length)).sum + 7) / 8 := by
  obtain ⟨enc, pl, hE, hM, hP, hout, hlen⟩ := pack_parts h
  exact ⟨enc, _, pl, hE, hP, hout, pack_data_length hP⟩

theorem claim_C6_payload_length_witness :
    pack [97, 98, 99, 100] =
      some [4, 4, 97, 3, 0, 98, 3, 1, 99, 2, 1, 100, 1, 1, 5, 128] ∧
    ∃ enc hdr pl, encode (frequency [97, 98, 99, 100]).2 = some enc ∧
      pack_data [97, 98, 99, 100] enc = some pl ∧
      [4, 4, 97, 3, 0, 98, 3, 1, 99, 2, 1, 100, 1, 1, 5, 128] = hdr ++ pl ∧
      pl.length =
        (([97, 98, 99, 100].map (fun c => (codeD enc c).length)).sum + 7) / 8 :=
  ⟨by decide, claim_C6_payload_length (by decide)⟩

/-- C7: `pack` fails — returning no file at all, so nothing truncated or
corrupt is written — whenever the input has more than 255 distinct symbols or
more than 255 total symbols: the one-byte header fields cannot hold the
count, `to_byte` raises, and the error propagates out of `pack`. -/
theorem claim_C7_overflow_rejected (input : List Nat)
    (h : 255 < (frequency input).2.length ∨ 255 < input.length) :
    pack input = none := by
  rw [pack]
  rcases hE : encode (frequency input).2 with _ | enc
  · rfl
  · dsimp only
    have hT : (frequency input).1 = input.length := rfl
    obtain ⟨e, he⟩ : ∃ e,
        pack_metadata enc (frequency input).1 (frequency input).2.length =
          Except.error e := by
      by_cases hf : (frequency input).2.length < 256
      · refine ⟨[(frequency input).2.length],
          pack_metadata_err_size enc _ _ hf ?_⟩
        rcases h with h | h
        · omega
        · omega
      · exact ⟨[], pack_metadata_err_freqLen enc _ _ (by omega)⟩
    rw [he]

set_option maxRecDepth 40000 in
theorem claim_C7_overflow_rejected_witness :
    255 < (frequency (List.range 256)).2.length ∧
    pack (List.range 256) = none := by
  have hd : 255 < (frequency (List.range 256)).2.length := by decide
  exact ⟨hd, claim_C7_overflow_rejected (List.range 256) (Or.inl hd)⟩

/-- C8: a code table whose keys fit a byte and whose codewords all have 1 to 8
bits round-trips through the metadata layer: `pack_metadata` succeeds, and
`unpack_metadata` on the header (followed by any payload) returns the stored
count unchanged, the inverse decoder table — each codeword string, rebuilt by
left-zero-padding the stored value byte to the stored length byte, maps back
to its symbol — and the set of codeword lengths. -/
theorem claim_C8_metadata_roundtrip (enc : Encoder) (T : Nat)
    (rest : List Nat) (hk : ∀ p ∈ enc, p.1 < 256)
    (hl : ∀ p ∈ enc, 1 ≤ p.2.length ∧ p.2.length ≤ 8)
    (hnd : (enc.map (fun p => p.2)).Nodup) (hN : enc.length < 256)
    (hT : T < 256) :
    ∃ hdr, pack_metadata enc T enc.length = Except.ok hdr ∧
      unpack_metadata (hdr ++ rest) = (T, swapEnc enc, valLens enc, rest) ∧
      ∀ p ∈ enc, dlookup (swapEnc enc) p.2 = some p.1 := by
  have hne0 : ∀ p ∈ enc, p.2 ≠ [] := by
    intro p hp hc
    have := (hl p hp).1
    rw [hc] at this
    simp at this
  have hentry : ∀ p ∈ enc, entryOk p.1 p.2 := by
    intro p hp
    refine ⟨hk p hp, hne0 p hp, by have := (hl p hp).2; omega, ?_⟩
    calc bitsToNat p.2 < 2 ^ p.2.length := bitsToNat_lt p.2
      _ ≤ 2 ^ 8 := Nat.pow_le_pow_right (by norm_num) (hl p hp).2
      _ = 256 := by norm_num
  refine ⟨enc.length :: T :: triplesOf enc,
    (pack_metadata_ok enc T enc.length _).mpr ⟨hN, hT, hentry, rfl⟩, ?_, ?_⟩
  · have := unpack_metadata_header enc T rest hne0 hnd
    simpa using this
  · intro p hp
    apply dlookup_of_mem
    · rw [swapEnc_keys]; exact hnd
    · exact List.mem_map.mpr ⟨p, hp, rfl⟩

theorem claim_C8_metadata_roundtrip_witness :
    (∀ p ∈ encTwo, 1 ≤ p.2.length ∧ p.2.length ≤ 8) ∧
    (encTwo.map (fun p => p.2)).Nodup ∧
    ∃ hdr, pack_metadata encTwo 7 encTwo.length = Except.ok hdr ∧
      unpack_metadata (hdr ++ [9]) = (7, swapEnc encTwo, valLens encTwo, [9]) ∧
      ∀ p ∈ encTwo, dlookup (swapEnc encTwo) p.2 = some p.1 :=
  ⟨by decide, by decide,
    claim_C8_metadata_roundtrip encTwo 7 [9] (by decide) (by decide)
      (by decide) (by decide) (by decide)⟩

/-- C9: for a payload produced by `pack_data` over a well-formed code table —
distinct keys, pairwise-separated codewords, no empty codeword — the decoder,
started with the stored total count `T = input.length`, emits exactly the `T`
original symbols and stops, never misreading the final byte's zero-padding as
an extra symbol. -/
theorem claim_C9_exact_count {enc : Encoder} {input pl : List Nat}
    (hknd : (keys enc).Nodup)
    (hsep : ∀ c1 v1 c2 v2, (c1, v1) ∈ enc → (c2, v2) ∈ enc → c1 ≠ c2 →
      codeSep v1 v2)
    (hne0 : ∀ p ∈ enc, p.2 ≠ [])
    (hpd : pack_data input enc = some pl) :
    unpack_data pl (input.length : Int) (swapEnc enc) (valLens enc) = input ∧
    (unpack_data pl (input.length : Int) (swapEnc enc)
        (valLens enc)).length = input.length := by
  have h := decode_pack_data hknd hsep hne0 hpd
  exact ⟨h, by rw [h]⟩

theorem claim_C9_exact_count_witness :
    pack_data [97, 98, 99, 100] encAbcd = some [5, 128] ∧
    unpack_data [5, 128] ([97, 98, 99, 100].length : Int) (swapEnc encAbcd)
      (valLens encAbcd) = [97, 98, 99, 100] := by
  have hE : encode (frequency [97, 98, 99, 100]).2 = some encAbcd := by decide
  have hsep := (encode_spec (frequency [97, 98, 99, 100]).2
    (frequency_sorted _) (frequency_pos _) (frequency_syms_nodup _) hE).1
  exact ⟨by decide,
    (claim_C9_exact_count (by decide) hsep (by decide) (by decide)).1⟩

/-- C10 (amended): `encode` terminates — the work stack empties within the
fixed fuel — for every non-empty frequency list with strictly positive
probabilities that is also sorted by non-increasing probability, the shape
`frequency` always produces. Positivity alone is not enough: on an unsorted
positive list the partition index can stay `-1` and the loop never ends. -/
theorem claim_C10_sorted_terminates (freq : List (Nat × Frac))
    (hsorted : sortedDesc freq) (hpos : posFreq freq) (hsnd : symsNodup freq)
    (hne : freq ≠ []) :
    ∃ enc2, encode freq = some enc2 :=
  encode_total freq hsorted hpos hsnd hne

theorem claim_C10_sorted_terminates_witness :
    (frequency [97, 98]).2 ≠ [] ∧
    ∃ enc2, encode (frequency [97, 98]).2 = some enc2 :=
  ⟨by decide, claim_C10_sorted_terminates (frequency [97, 98]).2
    (frequency_sorted _) (frequency_pos _) (frequency_syms_nodup _)
    (by decide)⟩

/-- C10, counterexample to the original claim: `unsortedFreq` is a non-empty
frequency list with strictly positive probabilities (1/8, 1/8, 6/8), yet the
work-stack loop never terminates on it — no fuel bound suffices — because the
first partition walk keeps `partition <= half` true at every index, leaving
`partition_index = -1` and pushing the self-reproducing range `(0, -2)`. -/
theorem claim_C10_unsorted_diverges :
    unsortedFreq ≠ [] ∧ (∀ p ∈ unsortedFreq, 0 < p.2.toRat) ∧
    encode unsortedFreq = none ∧
    ∀ fuel, encodeFuel unsortedFreq fuel = none := by
  refine ⟨by decide, ?_, encodeFuel_unsortedFreq_eq_none _,
    encodeFuel_unsortedFreq_eq_none⟩
  intro p hp
  fin_cases hp <;> norm_num [Frac.toRat, unsortedFreq]

end ShannonFano
